import Mathlib

/-!
# Verification of `nn_dataflow/core/inter_layer_pipeline.py`

This file gives a shallow embedding of the inter-layer pipeline core:

* `Dag` models the scheduling DAG consulted by `_gen_vseg`
  (`dag_prev_dict`, `dag_next_dict`, and the number of vertices
  `len(dag_vertex_list)`); the reserved input vertex is the integer `-1`,
  so predecessor sets live in `Finset Int` while vertex indices are `Nat`.
* `genVsegAux` / `genVseg` embed the recursive generator `_gen_vseg`.
  Python `assert` failures are modeled as `none`; the instance-scoped memo
  `self.seg_vertex_done` is threaded explicitly, and the full lazy drain of
  the generator is modeled as the returned list of yielded vsegs.
* `buildVertexSet`, `dfs`, `topologicalOrder`, `calcSchedDag` embed
  `_calc_sched_dag` and `_topological_order`.
* `genSegment` embeds `gen_segment`, with `PipelineSegment` validity
  treated as an opaque boolean oracle (it is an external collaborator).

The `Network`, `Layer`, `Resource` and `PipelineSegment` classes are not
part of this source file; the `Network` interface is modeled from the spec
(ordered layer names, per-layer predecessor/successor name lists with `""`
standing for the reserved external-input key, a conv/mergeable tag, and
the ordered list of first layers).
-/

namespace InterLayerPipeline

/-- The scheduling DAG as consulted by `_gen_vseg`: `n` vertices indexed
`0..n-1`; `prevs i` embeds `self.dag_prev_dict[i]` (which may contain the
input sentinel `-1`, hence `Finset Int`); `nexts i` embeds
`self.dag_next_dict[i]` for real vertices (successor indices are always
real vertex indices, never `-1`). -/
structure Dag where
  n : Nat
  prevs : Nat → Finset Int
  nexts : Nat → Finset Nat

/-- Embeds `set(vseg)`, with vertex indices coerced to `Int` so they can be
compared against predecessor sets that may contain `-1`. -/
def segIntSet (vseg : List Nat) : Finset Int :=
  (vseg.map (fun i => (i : Int))).toFinset

/-- Embeds `set.union(set(vseg), *[self.dag_prev_dict[i] for i in vseg])`. -/
def segDeps (d : Dag) (vseg : List Nat) : Finset Int :=
  segIntSet vseg ∪ vseg.foldr (fun i acc => d.prevs i ∪ acc) ∅

/-- Embeds `share_deps = not vseg or not frontier_prevs.isdisjoint(...)`:
the frontier shares dependencies with the current segment (rule 1 passes),
vacuously when the segment is empty.  `isdisjoint` is rendered as an empty
intersection. -/
def shareDeps (d : Dag) (vseg : List Nat) (frontier : Nat) : Prop :=
  vseg = [] ∨ d.prevs frontier ∩ segDeps d vseg ≠ ∅

/-- Embeds `coupled_prevs = len(frontier_prevs) > 1 and not
frontier_prevs.isdisjoint(vseg)` (rule 2 fails). -/
def coupledPrevs (d : Dag) (vseg : List Nat) (frontier : Nat) : Prop :=
  1 < (d.prevs frontier).card ∧ d.prevs frontier ∩ segIntSet vseg ≠ ∅

instance (d : Dag) (vseg : List Nat) (frontier : Nat) :
    Decidable (shareDeps d vseg frontier) :=
  inferInstanceAs (Decidable (vseg = [] ∨ d.prevs frontier ∩ segDeps d vseg ≠ ∅))

instance (d : Dag) (vseg : List Nat) (frontier : Nat) :
    Decidable (coupledPrevs d vseg frontier) :=
  inferInstanceAs
    (Decidable (1 < (d.prevs frontier).card ∧ d.prevs frontier ∩ segIntSet vseg ≠ ∅))

/-- Result of the rule-3 scan over the freshly extended segment:
`pass` means the `for ... else` loop ran to completion (the segment is
yielded); `failCont` means some member's successors are neither disjoint
from nor contained in the segment but the inner `assert
min(nexts.difference(vseg)) > frontier` holds (the loop `break`s and the
outer loop continues); `failAssert` means that assertion is violated
(an `AssertionError`).  `min(S) > frontier` for the nonempty difference is
rendered as `∀ j ∈ S, frontier < j`. -/
inductive R3Res where
  | pass : R3Res
  | failCont : R3Res
  | failAssert : R3Res
deriving DecidableEq

/-- The inner `for idx in vseg` loop of `_gen_vseg`, scanning members in
order and stopping at the first rule-3 violation. -/
def r3scanGo (d : Dag) (full : Finset Nat) (frontier : Nat) : List Nat → R3Res
  | [] => .pass
  | idx :: rest =>
    if d.nexts idx ∩ full = ∅ ∨ d.nexts idx ⊆ full then
      r3scanGo d full frontier rest
    else if ∀ j ∈ d.nexts idx \ full, frontier < j then .failCont
    else .failAssert

/-- Rule-3 scan of the whole current segment. -/
def r3scan (d : Dag) (vseg : List Nat) (frontier : Nat) : R3Res :=
  r3scanGo d vseg.toFinset frontier vseg

/-- The body of `_gen_vseg(vertex_idx, done)`, from the `for frontier in
range(vertex_idx, len(self.dag_vertex_list))` loop onward: `s` is
`vertex_idx`, `frontier`/`vseg` are the loop state (`vseg` holds the
vertices added so far, so at entry `frontier = s` and `vseg = []`),
`done` is the `done` set (already containing the input vertex `-1`), and
`memo` is the instance field `self.seg_vertex_done`.

Returns `some (yields, memo')` where `yields` are the vsegs yielded (in
order) by a full drain of the generator call and `memo'` the memo after
it, or `none` if any `assert` fails (`assert vseg` on a rule-1/2 break
with an empty segment, the rule-3 `assert min(...) > frontier`, or the
final `assert vertex_idx not in self.seg_vertex_done`).

The recursive call `self._gen_vseg(frontier + 1, done.union(vseg))`
enters with a nonempty `done`, so the callee's `if not done:` reset does
not fire and its `done.add(self.dag_input_vertex)` is a no-op (`-1` is
already in `done`); both are therefore inlined away at the call site,
and the top-level reset is performed by the wrapper `genVseg`.

`fuel` only makes the recursion structural (so that the kernel can
evaluate the function on concrete inputs): under the invariant
`d.n ≤ frontier + fuel` the `fuel = 0` equation coincides with the
loop-exhausted exit, so the behaviour is that of the unbounded recursion;
`genVseg` supplies `fuel = d.n`, which always satisfies the invariant. -/
def genVsegAux (d : Dag) :
    (fuel s frontier : Nat) → List Nat → Finset Int → Finset Nat →
      Option (List (List Nat) × Finset Nat)
  | 0, s, _, _, _, memo =>
    -- loop exhausted: `assert vertex_idx not in self.seg_vertex_done`,
    -- then `self.seg_vertex_done.add(vertex_idx)`.
    if s ∈ memo then none
    else some ([], insert s memo)
  | fuel + 1, s, frontier, vseg, done, memo =>
    if frontier < d.n then
      if ¬ shareDeps d vseg frontier ∨ coupledPrevs d vseg frontier then
        -- rule 1 or rule 2 stops the extension: `assert vseg` then `break`,
        -- which falls through to the final assert-and-mark of `vertex_idx`.
        if vseg = [] then none
        else if s ∈ memo then none
        else some ([], insert s memo)
      else
        match r3scan d (vseg ++ [frontier]) frontier with
        | .failAssert => none
        | .failCont =>
          -- invalid segment: keep extending without yielding.
          genVsegAux d fuel s (frontier + 1) (vseg ++ [frontier]) done memo
        | .pass =>
          -- valid segment: yield it, then recurse unless already explored.
          if frontier + 1 ∈ memo then
            match genVsegAux d fuel s (frontier + 1) (vseg ++ [frontier]) done memo with
            | none => none
            | some (rest, memo₁) => some ((vseg ++ [frontier]) :: rest, memo₁)
          else
            match genVsegAux d fuel (frontier + 1) (frontier + 1) []
                (done ∪ segIntSet (vseg ++ [frontier])) memo with
            | none => none
            | some (sub, memo₁) =>
              match genVsegAux d fuel s (frontier + 1) (vseg ++ [frontier]) done memo₁ with
              | none => none
              | some (rest, memo₂) => some ((vseg ++ [frontier]) :: (sub ++ rest), memo₂)
    else
      -- loop exhausted.
      if s ∈ memo then none
      else some ([], insert s memo)

/-- A top-level pass `self._gen_vseg()`: `vertex_idx = 0`, `done = None`
resets the memo to `∅` and becomes `{-1}` after `done.add(-1)`. -/
def genVseg (d : Dag) : Option (List (List Nat) × Finset Nat) :=
  genVsegAux d d.n 0 0 [] {(-1 : Int)} ∅

/-- The contiguous run of vertex indices `[s, s+1, ..., b]`. -/
def segRun (s b : Nat) : List Nat :=
  List.range' s (b + 1 - s)

/-! ## Characterisation of `_gen_vseg`

The generator only ever considers contiguous runs `segRun s b`: the
frontier walks `s, s+1, ...` and the segment grows by exactly the frontier
at each non-breaking step.  `RunOK d s b` says the run `[s..b]` passes the
rule-1/rule-2 check at every extension step and the rule-3 check as a
whole, which is exactly the condition for `[s..b]` to be yielded by the
call starting at `s`. -/

/-- Rule 3 for a whole segment: every member's successor set is disjoint
from the segment or contained in it. -/
def R3P (d : Dag) (v : List Nat) : Prop :=
  ∀ idx ∈ v, d.nexts idx ∩ v.toFinset = ∅ ∨ d.nexts idx ⊆ v.toFinset

/-- Rules 1 and 2 pass when the frontier `g` is considered for the run
started at `s` (the current segment is then `[s..g-1]`). -/
def R1R2 (d : Dag) (s g : Nat) : Prop :=
  shareDeps d (List.range' s (g - s)) g ∧ ¬ coupledPrevs d (List.range' s (g - s)) g

/-- The run `[s..b]` is yielded by the enumeration starting at `s`. -/
def RunOK (d : Dag) (s b : Nat) : Prop :=
  (∀ g ∈ Finset.Icc s b, R1R2 d s g) ∧ R3P d (segRun s b)

instance (d : Dag) (v : List Nat) : Decidable (R3P d v) :=
  inferInstanceAs
    (Decidable (∀ idx ∈ v, d.nexts idx ∩ v.toFinset = ∅ ∨ d.nexts idx ⊆ v.toFinset))

instance (d : Dag) (s g : Nat) : Decidable (R1R2 d s g) :=
  inferInstanceAs (Decidable (_ ∧ _))

instance (d : Dag) (s b : Nat) : Decidable (RunOK d s b) :=
  inferInstanceAs (Decidable ((∀ g ∈ Finset.Icc s b, R1R2 d s g) ∧ R3P d (segRun s b)))

/-- Successor indices strictly exceed the vertex index (the scheduling
order is topological, spec §3). -/
def TopoNext (d : Dag) : Prop :=
  ∀ i, i < d.n → ∀ j ∈ d.nexts i, i < j

/-- Predecessor indices are strictly below the vertex index (`-1`, the
input sentinel, always is). -/
def TopoPrev (d : Dag) : Prop :=
  ∀ i, i < d.n → ∀ j ∈ d.prevs i, j < (i : Int)

instance (d : Dag) : Decidable (TopoNext d) :=
  inferInstanceAs (Decidable (∀ i, i < d.n → ∀ j ∈ d.nexts i, i < j))

instance (d : Dag) : Decidable (TopoPrev d) :=
  inferInstanceAs (Decidable (∀ i, i < d.n → ∀ j ∈ d.prevs i, j < (i : Int)))

/-- The multiset of vsegs still to be yielded by the loop of the call
started at `s` once the frontier has reached `f`. -/
def stateMS (d : Dag) (s f : Nat) : Multiset (List Nat) :=
  (((Finset.Ico f d.n).filter (fun b => RunOK d s b)).val).map (fun b => segRun s b)

/-- The multiset of vsegs yielded by the whole call started at `s`. -/
def callMS (d : Dag) (s : Nat) : Multiset (List Nat) :=
  stateMS d s s

/-- The memo only ever contains fully explored start indices, and a start
index is explored only after all larger ones reachable from it; at every
stable point the memo is upward closed up to `d.n`. -/
def MemoClosed (d : Dag) (memo : Finset Nat) : Prop :=
  ∀ a ∈ memo, Finset.Icc a d.n ⊆ memo


/-- Rule R1 as the spec states it: every vertex added after the first
shares a dependency with the segment built so far — its predecessor set
meets the union of the earlier members and their predecessor sets. -/
def ruleR1 (d : Dag) (v : List Nat) : Prop :=
  ∀ k, k < v.length → 0 < k → d.prevs (v.getD k 0) ∩ segDeps d (v.take k) ≠ ∅

/-- Rule R2 as the spec states it: no vseg contains a vertex with more
than one predecessor together with one of that vertex's predecessors. -/
def ruleR2 (d : Dag) (v : List Nat) : Prop :=
  ∀ x ∈ v, 1 < (d.prevs x).card → ∀ y ∈ v, (y : Int) ∉ d.prevs x

/-- Rule R3 as the spec states it: each member's successor set is either
disjoint from the vseg or entirely contained in it. -/
def ruleR3 (d : Dag) (v : List Nat) : Prop :=
  R3P d v

instance (d : Dag) (v : List Nat) : Decidable (ruleR1 d v) :=
  inferInstanceAs
    (Decidable (∀ k, k < v.length → 0 < k → d.prevs (v.getD k 0) ∩ segDeps d (v.take k) ≠ ∅))

instance (d : Dag) (v : List Nat) : Decidable (ruleR2 d v) :=
  inferInstanceAs
    (Decidable (∀ x ∈ v, 1 < (d.prevs x).card → ∀ y ∈ v, (y : Int) ∉ d.prevs x))

instance (d : Dag) (v : List Nat) : Decidable (ruleR3 d v) :=
  inferInstanceAs (Decidable (R3P d v))

/-! ## The scheduling-DAG construction (`_calc_sched_dag`, `_topological_order`) -/

/-- Modelled from the spec: the `Network` interface (the class itself is
an external collaborator, not part of this source file).  `layers` is the
ordered collection of layer names; `isConv l` stands for
`isinstance(network[l], ConvLayer)` (filtered vs mergeable); `prevLayers l`
models the first component of `network.prev_layers(l)` and `nextLayers l`
models `network.next_layers(l)`, with the empty string standing for the
falsy reserved external-input key; `firstLayers` models
`network.first_layers()`, the ordered list of layers with no (real)
predecessor. -/
structure Network where
  layers : List String
  isConv : String → Bool
  prevLayers : String → List String
  nextLayers : String → List String
  firstLayers : List String

/-- The merge-eligibility test of `_calc_sched_dag`, for a candidate
vertex `v` and the predecessor set of a mergeable layer: the vertex head
`v[:-1]` is disjoint from the predecessors, the vertex tail `v[-1]` is a
predecessor, and `len(network.next_layers(v[-1])) == 1`. -/
def mergeOk (net : Network) (prevs : Finset String) (v : List String) : Prop :=
  prevs ∩ v.dropLast.toFinset = ∅ ∧ v.getLastD "" ∈ prevs ∧
    (net.nextLayers (v.getLastD "")).length = 1

instance (net : Network) (prevs : Finset String) (v : List String) :
    Decidable (mergeOk net prevs v) :=
  inferInstanceAs
    (Decidable (prevs ∩ v.dropLast.toFinset = ∅ ∧ v.getLastD "" ∈ prevs ∧
      (net.nextLayers (v.getLastD "")).length = 1))

/-- The reversed scan `for idx in reversed(range(len(dag_vertex_set)))`:
returns the largest index below `k` whose vertex is merge-eligible. -/
def findMergeIdx (net : Network) (prevs : Finset String) (acc : List (List String)) :
    Nat → Option Nat
  | 0 => none
  | k + 1 =>
    if mergeOk net prevs (acc.getD k []) then some k
    else findMergeIdx net prevs acc k

/-- One step of the vertex-building loop of `_calc_sched_dag`: a
`ConvLayer` starts a new singleton vertex; a mergeable layer (whose
predecessor set must be nonempty — `assert prev_layers`) is appended to
the most recently created eligible vertex, or becomes a new singleton
vertex when none is eligible. -/
def buildStep (net : Network) (acc : List (List String)) (layerName : String) :
    Option (List (List String)) :=
  if net.isConv layerName then some (acc ++ [[layerName]])
  else
    if (net.prevLayers layerName).toFinset = ∅ then none
    else
      match findMergeIdx net ((net.prevLayers layerName).toFinset) acc acc.length with
      | some idx => some (acc.set idx (acc.getD idx [] ++ [layerName]))
      | none => some (acc ++ [[layerName]])

/-- The vertex-building loop of `_calc_sched_dag` over the network's
layers in declaration order. -/
def buildVertexSet (net : Network) : Option (List (List String)) :=
  net.layers.foldlM (buildStep net) []

/-- The state of the depth-first search of `_topological_order`:
`visited` (postorder result list), `unseen` (pending), `seen`
(in-progress stack contents). -/
structure DfsState where
  visited : List (List String)
  unseen : Finset (List String)
  seen : Finset (List String)

/-- The `next_layers` collection inside `_dfs`: successor layer names of
any member of the vertex, skipping falsy names, names inside the vertex,
and duplicates, in first-encounter order. -/
def vertexNextLayers (net : Network) (vertex : List String) : List String :=
  vertex.foldl (fun acc l =>
    (net.nextLayers l).foldl (fun acc2 nl =>
      if nl ≠ "" ∧ nl ∉ vertex ∧ nl ∉ acc2 then acc2 ++ [nl] else acc2) acc) []

/-- The `for nv in unseen: if nl in nv` collection, for each name of
`nls` in turn.  The Python iterates a `set`; since each layer belongs to
at most one vertex (asserted downstream), at most one vertex matches each
name and the set-iteration order is immaterial, so the scan is rendered
over the vertex list in order. -/
def collectVertices (vl : List (List String)) (unseen : Finset (List String))
    (nls : List String) : List (List String) :=
  nls.foldl (fun acc nl => acc ++ vl.filter (fun nv => decide (nv ∈ unseen ∧ nl ∈ nv))) []

/-- The recursive `_dfs`.  `assert vertex not in seen and vertex not in
visited` is modelled as `none`; `fuel` makes the recursion structural
(`topologicalOrder` supplies `vl.length + 1`, which suffices because each
nested call strictly shrinks `unseen` and every visited vertex lies in
`unseen`). -/
def dfs (net : Network) (vl : List (List String)) :
    Nat → List String → DfsState → Option DfsState
  | 0, _, _ => none
  | fuel + 1, vertex, st =>
    if vertex ∈ st.seen ∨ vertex ∈ st.visited then none
    else
      match (collectVertices vl (st.unseen.erase vertex)
          ((vertexNextLayers net vertex).reverse)).foldlM
          (fun acc nv => dfs net vl fuel nv acc)
          ⟨st.visited, st.unseen.erase vertex, insert vertex st.seen⟩ with
      | none => none
      | some st2 => some ⟨st2.visited ++ [vertex], st2.unseen, st2.seen.erase vertex⟩

/-- The start-vertex collection of `_topological_order`: for each first
layer in reversed order, the unseen vertex containing it (the initial
`unseen` is the whole vertex set). -/
def startVertices (net : Network) (vl : List (List String)) : List (List String) :=
  collectVertices vl vl.toFinset net.firstLayers.reverse

/-- Embeds `_topological_order`: run `_dfs` from every start vertex, then check
`assert not unseen` and `assert not seen`, and return the reversed
postorder list. -/
def topologicalOrder (net : Network) (vl : List (List String)) :
    Option (List (List String)) :=
  match (startVertices net vl).foldlM
      (fun acc v => dfs net vl (vl.length + 1) v acc)
      (⟨[], vl.toFinset, ∅⟩ : DfsState) with
  | none => none
  | some st =>
    if st.unseen = ∅ ∧ st.seen = ∅ then some st.visited.reverse else none

/-- Embeds `self.dag_vertex_dict[name]`: the index of the vertex containing
`name`.  The dict insertion asserts that no layer occurs twice, so the
first-match scan coincides with the dict lookup; a missing name is a
`KeyError`, modelled as `none`. -/
def vidxOf (VL : List (List String)) (name : String) : Option Nat :=
  VL.findIdx? (fun v => decide (name ∈ v))

/-- The adjacency-building loop of `_calc_sched_dag`: for every layer,
map its predecessor names (empty string ↦ input vertex `-1`) and
successor names (empty string skipped) to vertex indices and record the
edges between distinct vertices.  The two dicts-of-sets are rendered as
index-aligned lists of sets. -/
def buildAdj (net : Network) (VL : List (List String)) :
    Option (List (Finset Int) × List (Finset Nat)) :=
  net.layers.foldlM (fun pn ln =>
    match vidxOf VL ln with
    | none => none
    | some vidx =>
      match (net.prevLayers ln).foldlM (fun pd pl =>
          (if pl = "" then some (-1 : Int)
           else (vidxOf VL pl).map (fun i => (i : Int))).map
            (fun pvidx =>
              if pvidx ≠ (vidx : Int) then pd.set vidx (pd.getD vidx ∅ ∪ {pvidx}) else pd))
          pn.1 with
      | none => none
      | some pd =>
        match (net.nextLayers ln).foldlM (fun nd nl =>
            if nl = "" then some nd
            else (vidxOf VL nl).map
              (fun nvidx =>
                if nvidx ≠ vidx then nd.set vidx (nd.getD vidx ∅ ∪ {nvidx}) else nd))
            pn.2 with
        | none => none
        | some nd => some (pd, nd))
    (List.replicate VL.length ∅, List.replicate VL.length ∅)

/-- The computed scheduling DAG: `dag_vertex_list`, `dag_prev_dict` and
`dag_next_dict` (the latter two as index-aligned lists; the entry
`dag_next_dict[-1]` for the input vertex is never consulted by the
pipeline operations verified here and is omitted). -/
structure SchedDag where
  vertexList : List (List String)
  prevList : List (Finset Int)
  nextList : List (Finset Nat)
deriving DecidableEq

/-- The adjacency view consumed by `_gen_vseg`. -/
def SchedDag.toDag (sd : SchedDag) : Dag :=
  ⟨sd.vertexList.length, fun i => sd.prevList.getD i ∅, fun i => sd.nextList.getD i ∅⟩

/-- Embeds `_calc_sched_dag`: build the merged vertex set, check
`assert sum(len(v) for v in dag_vertex_set) == len(self.network)`, order
it topologically, build the layer-to-vertex dict (whose insertion assert
amounts to the flattened vertex list having no duplicate layer), and
derive the adjacency dicts. -/
def calcSchedDag (net : Network) : Option SchedDag :=
  match buildVertexSet net with
  | none => none
  | some vl0 =>
    if (vl0.map List.length).sum = net.layers.length then
      match topologicalOrder net vl0 with
      | none => none
      | some vl =>
        if vl.flatten.Nodup then
          match buildAdj net vl with
          | none => none
          | some pn => some ⟨vl, pn.1, pn.2⟩
        else none
    else none

/-- Embeds `ordered_layer_list`: `list(sum(self.dag_vertex_list, tuple()))`,
the concatenation of the ordered vertex tuples. -/
def orderedLayerList (sd : SchedDag) : List String :=
  sd.vertexList.flatten

/-- The error raised by the constructor: `TypeError` for a wrong
`network`/`resource` argument, `ValueError` for an out-of-range
`max_util_drop`, or a structural failure (assertion/KeyError) during the
eager DAG build. -/
inductive CtorError where
  | typeError : CtorError
  | valueError : CtorError
  | structError : CtorError
deriving DecidableEq

/-- Embeds `InterLayerPipeline.__init__`: the `isinstance` tests on `network`
and `resource` are modelled as boolean facts about the dynamic arguments;
`max_util_drop` (a Python float) is modelled as a rational.  The checks
run in order before `_calc_sched_dag` is invoked. -/
def interLayerPipelineInit (networkIsNetwork resourceIsResource : Bool)
    (net : Network) (maxUtilDrop : ℚ) : Except CtorError SchedDag :=
  if ¬ networkIsNetwork then .error .typeError
  else if ¬ resourceIsResource then .error .typeError
  else if ¬ (0 ≤ maxUtilDrop ∧ maxUtilDrop ≤ 1) then .error .valueError
  else
    match calcSchedDag net with
    | some sd => .ok sd
    | none => .error .structError

/-- Holds of a constructor outcome exactly when it is one of the two
argument-check ("configuration") errors, as opposed to success or a
structural failure inside the DAG build. -/
def isConfigError (r : Except CtorError SchedDag) : Prop :=
  match r with
  | .error e => e = .typeError ∨ e = .valueError
  | .ok _ => False

instance (r : Except CtorError SchedDag) : Decidable (isConfigError r) :=
  match r with
  | .error e => inferInstanceAs (Decidable (e = .typeError ∨ e = .valueError))
  | .ok _ => inferInstanceAs (Decidable False)

/-! ## The orchestrator (`gen_segment`) -/

/-- The two option flags consulted by `gen_segment` (spec §6). -/
structure SegOptions where
  partition_interlayer : Bool
  hw_gbuf_save_writeback : Bool

/-- Spatial materialisation of a vseg: one stage per vertex,
`tuple(self.dag_vertex_list[vidx] for vidx in vseg)`. -/
def spatialSeg (vl : List (List String)) (vseg : List Nat) : List (List String) :=
  vseg.map (fun vidx => vl.getD vidx [])

/-- Temporal materialisation of a vseg: all vertices flattened into a
single stage. -/
def temporalSeg (vl : List (List String)) (vseg : List Nat) : List (List String) :=
  [(vseg.map (fun vidx => vl.getD vidx [])).flatten]

/-- Candidate set `seg_cands` for one vseg: the flag-enabled spatial and
temporal candidates with duplicates eliminated (a Python `set`; its
iteration order is immaterial to the verified properties). -/
def segCands (vl : List (List String)) (opts : SegOptions) (vseg : List Nat) :
    List (List (List String)) :=
  ((if opts.partition_interlayer then [spatialSeg vl vseg] else []) ++
    (if opts.hw_gbuf_save_writeback then [temporalSeg vl vseg] else [])).dedup

/-- Embeds `gen_segment(options)` (full drain): first the per-layer
single-stage segments, each subject to `assert segment.valid` (modelled
as `none` on failure — the `AssertionError` aborts the enumeration); then
for every vseg of a fresh `_gen_vseg` pass, the deduplicated candidates
that the external validator accepts.  `valid` is the
`PipelineSegment(seg, ...).valid` flag, an external black box. -/
def genSegment (net : Network) (sd : SchedDag) (opts : SegOptions)
    (valid : List (List String) → Bool) : Option (List (List (List String))) :=
  match net.layers.foldlM (fun acc layer =>
      if valid [[layer]] then some (acc ++ [[[layer]]]) else none) [] with
  | none => none
  | some firsts =>
    match genVseg sd.toDag with
    | none => none
    | some p =>
      some (firsts ++
        (p.1.map (fun vseg => (segCands sd.vertexList opts vseg).filter valid)).flatten)

/-! ## Concrete instances -/

/-- A concrete three-layer network, all layers conv: `A` and `B` read the
external input, `C` reads `A`.  Its construction succeeds and yields the
vertex order `[A], [C], [B]`. -/
def netCX : Network where
  layers := ["A", "B", "C"]
  isConv := fun _ => true
  prevLayers := fun l => if l = "C" then ["A"] else [""]
  nextLayers := fun l => if l = "A" then ["C"] else []
  firstLayers := ["A", "B"]

/-- The scheduling DAG computed for `netCX` (the `getD` default is never
used: construction succeeds, as proved below by evaluation). -/
def cxSd : SchedDag :=
  (calcSchedDag netCX).getD ⟨[], [], []⟩

/-- The adjacency view of `cxSd`. -/
def cxDag : Dag :=
  cxSd.toDag

/-- Concrete network for the merge scenario of spec §8: conv layer `A`;
mergeable layer `B` whose sole predecessor is `A`; mergeable layer `F`
whose sole predecessor is `B`, which is `B`'s only successor. -/
def netMerge : Network where
  layers := ["A", "B", "F"]
  isConv := fun l => l = "A"
  prevLayers := fun l => if l = "A" then [""] else if l = "B" then ["A"] else ["B"]
  nextLayers := fun l => if l = "A" then ["B"] else if l = "B" then ["F"] else []
  firstLayers := ["A"]

/-- A one-conv-layer network. -/
def netC4 : Network where
  layers := ["A"]
  isConv := fun _ => true
  prevLayers := fun _ => [""]
  nextLayers := fun _ => []
  firstLayers := ["A"]

/-- The scheduling DAG computed for `netC4`. -/
def sdC4 : SchedDag :=
  (calcSchedDag netC4).getD ⟨[], [], []⟩

/-! ## Well-formedness and DFS invariants for the topological-order proof -/

/-- Modelled from the spec: structural well-formedness of the external
`Network` interface — unique layer names, predecessor and successor lists
mentioning only real layers or the input key, and the two lists mutually
consistent. -/
structure NetWF (net : Network) : Prop where
  nodup : net.layers.Nodup
  noEmpty : "" ∉ net.layers
  prevMem : ∀ l ∈ net.layers, ∀ p ∈ net.prevLayers l, p = "" ∨ p ∈ net.layers
  nextMem : ∀ l ∈ net.layers, ∀ nl ∈ net.nextLayers l, nl = "" ∨ nl ∈ net.layers
  consist : ∀ l ∈ net.layers, ∀ p ∈ net.layers, (p ∈ net.prevLayers l ↔ l ∈ net.nextLayers p)

/-- Acyclicity of the layer graph, witnessed by a rank function strictly
increasing along every real edge (for a finite graph such a function
exists iff the graph is a DAG). -/
def LayerRank (net : Network) (rank : String → Nat) : Prop :=
  ∀ l ∈ net.layers, ∀ p ∈ net.prevLayers l, p ≠ "" → rank p < rank l

/-- The within-vertex chain property the merge rule establishes: every
non-final member's unique network successor is the following member. -/
def VertexChain (net : Network) (v : List String) : Prop :=
  List.Chain' (fun t m => net.nextLayers t = [m]) v

/-- Static facts about a vertex set produced by `buildVertexSet`:
vertices are nonempty chains of known layers. -/
def VertexSetOk (net : Network) (vl : List (List String)) : Prop :=
  ∀ v ∈ vl, v ≠ [] ∧ VertexChain net v ∧ ∀ x ∈ v, x ∈ net.layers

/-- Vertex-level successor relation as discovered by the DFS: some
member of `u` has a real successor layer outside `u` lying in `w`. -/
def EdgeV (net : Network) (u w : List String) : Prop :=
  ∃ l ∈ u, ∃ nl ∈ net.nextLayers l, nl ≠ "" ∧ nl ∉ u ∧ nl ∈ w

/-- Rank of a vertex: the rank of its tail layer (vertex tuples are
rank-increasing chains, so the tail carries the maximum). -/
def rankV (rank : String → Nat) (v : List String) : Nat :=
  rank (v.getLastD "")

/-- Postorder correctness of a (partial) visit list: every vertex-level
successor of a listed vertex appears strictly earlier. -/
def PostOk (net : Network) (vl L : List (List String)) : Prop :=
  ∀ u w, EdgeV net u w → w ∈ vl → u ∈ L → ∃ A B, L = A ++ B ∧ w ∈ A ∧ u ∈ B

/-- The `_dfs` state invariant: the three colour classes partition the
vertex set, and the postorder list is duplicate-free and `PostOk`. -/
structure DfsInv (net : Network) (vl : List (List String)) (st : DfsState) : Prop where
  cover : ∀ v ∈ vl, v ∈ st.unseen ∨ v ∈ st.seen ∨ v ∈ st.visited
  subU : ∀ v ∈ st.unseen, v ∈ vl
  subS : ∀ v ∈ st.seen, v ∈ vl
  subV : ∀ v ∈ st.visited, v ∈ vl
  dUS : ∀ v ∈ st.unseen, v ∉ st.seen
  dUV : ∀ v ∈ st.unseen, v ∉ st.visited
  dSV : ∀ v ∈ st.seen, v ∉ st.visited
  nodupV : st.visited.Nodup
  post : PostOk net vl st.visited


section Helpers

variable {d : Dag}

theorem segRun_self (s : Nat) : segRun s s = [s] := by
  simp [segRun]

theorem mem_segIntSet {vseg : List Nat} {z : Int} :
    z ∈ segIntSet vseg ↔ ∃ y ∈ vseg, (y : Int) = z := by
  rw [segIntSet, List.mem_toFinset]
  simp [eq_comm]

theorem mem_segRun {s b x : Nat} (h : s ≤ b) : x ∈ segRun s b ↔ s ≤ x ∧ x ≤ b := by
  rw [segRun, List.mem_range'_1]
  omega

theorem segRun_concat {s f : Nat} (h : s ≤ f) :
    List.range' s (f - s) ++ [f] = segRun s f := by
  have h1 : f + 1 - s = (f - s) + 1 := by omega
  have h2 : s + 1 * (f - s) = f := by omega
  rw [segRun, h1, List.range'_concat, h2]

theorem segRun_ne_nil {s b : Nat} (h : s ≤ b) : segRun s b ≠ [] := by
  rw [segRun, Ne, List.range'_eq_nil]
  omega

theorem R1R2_self (s : Nat) : R1R2 d s s := by
  constructor
  · left
    simp
  · intro hc
    rcases hc with ⟨-, hne⟩
    apply hne
    simp [segIntSet]

theorem stateMS_stop {s f : Nat} (h : d.n ≤ f) : stateMS d s f = 0 := by
  rw [stateMS, Finset.Ico_eq_empty (by omega)]
  rfl

theorem Ico_insert_left {f n : Nat} (h : f < n) :
    Finset.Ico f n = insert f (Finset.Ico (f + 1) n) := by
  ext a
  simp only [Finset.mem_Ico, Finset.mem_insert]
  omega

theorem stateMS_step {s f : Nat} (h : f < d.n) :
    stateMS d s f =
      if RunOK d s f then segRun s f ::ₘ stateMS d s (f + 1) else stateMS d s (f + 1) := by
  rw [stateMS, Ico_insert_left h, Finset.filter_insert]
  split
  · rw [Finset.insert_val_of_not_mem (by simp), Multiset.map_cons]
    rfl
  · rfl

theorem stateMS_eq_zero_of_not_r1r2 {s f : Nat} (hsf : s ≤ f) (h : ¬ R1R2 d s f) :
    stateMS d s f = 0 := by
  rw [stateMS]
  have : (Finset.Ico f d.n).filter (fun b => RunOK d s b) = ∅ := by
    rw [Finset.filter_eq_empty_iff]
    intro b hb hrun
    exact h (hrun.1 f (Finset.mem_Icc.mpr ⟨hsf, (Finset.mem_Ico.mp hb).1⟩))
  rw [this]
  rfl

theorem r3scanGo_pass_iff (full : Finset Nat) (fr : Nat) (l : List Nat) :
    r3scanGo d full fr l = .pass ↔
      ∀ idx ∈ l, d.nexts idx ∩ full = ∅ ∨ d.nexts idx ⊆ full := by
  induction l with
  | nil => simp [r3scanGo]
  | cons idx rest ih =>
    rw [r3scanGo]
    split
    · rename_i hgood
      rw [ih]
      constructor
      · intro h x hx
        rcases List.mem_cons.mp hx with rfl | hx
        · exact hgood
        · exact h x hx
      · intro h x hx
        exact h x (List.mem_cons_of_mem _ hx)
    · rename_i hbad
      split
      · apply iff_of_false
        · intro h
          exact R3Res.noConfusion h
        · intro h
          exact hbad (h idx (List.mem_cons_self _ _))
      · apply iff_of_false
        · intro h
          exact R3Res.noConfusion h
        · intro h
          exact hbad (h idx (List.mem_cons_self _ _))

theorem r3scan_pass_iff (v : List Nat) (fr : Nat) :
    r3scan d v fr = .pass ↔ R3P d v :=
  r3scanGo_pass_iff v.toFinset fr v

theorem r3scanGo_ne_failAssert (Ht : TopoNext d) {s f : Nat} (hsf : s ≤ f) (hf : f < d.n)
    (l : List Nat) (hl : ∀ x ∈ l, s ≤ x ∧ x ≤ f) :
    r3scanGo d (segRun s f).toFinset f l ≠ .failAssert := by
  induction l with
  | nil => simp [r3scanGo]
  | cons idx rest ih =>
    rw [r3scanGo]
    split
    · exact ih (fun x hx => hl x (List.mem_cons_of_mem _ hx))
    · rw [if_pos]
      · simp
      · intro j hj
        rw [Finset.mem_sdiff, List.mem_toFinset, mem_segRun hsf] at hj
        have hidx := hl idx (List.mem_cons_self _ _)
        have := Ht idx (by omega) j hj.1
        omega

theorem r3scan_ne_failAssert (Ht : TopoNext d) {s f : Nat} (hsf : s ≤ f) (hf : f < d.n) :
    r3scan d (segRun s f) f ≠ .failAssert :=
  r3scanGo_ne_failAssert Ht hsf hf _ (fun x hx => (mem_segRun hsf).mp hx)

theorem r3scan_singleton_pass (Ht : TopoNext d) {s : Nat} (hs : s < d.n) :
    r3scan d (segRun s s) s = .pass := by
  rw [r3scan_pass_iff]
  intro idx hidx
  rw [segRun_self] at hidx
  rcases List.mem_singleton.mp hidx with rfl
  left
  rw [segRun_self, Finset.eq_empty_iff_forall_not_mem]
  intro j hj
  rw [Finset.mem_inter, List.mem_toFinset, List.mem_singleton] at hj
  rcases hj with ⟨hj1, rfl⟩
  exact absurd (Ht j hs j hj1) (lt_irrefl _)

theorem sdiff_erase_decomp {A B C : Finset Nat} {s : Nat} (hAB : A ⊆ B) (hBC : B ⊆ C)
    (hsB : s ∉ B) :
    (C \ A).erase s = ((C \ B).erase s) ∪ (B \ A) ∧
      Disjoint ((C \ B).erase s) (B \ A) := by
  constructor
  · ext a
    simp only [Finset.mem_erase, Finset.mem_sdiff, Finset.mem_union]
    constructor
    · rintro ⟨hne, hC, hnA⟩
      by_cases hB : a ∈ B
      · exact Or.inr ⟨hB, hnA⟩
      · exact Or.inl ⟨hne, hC, hB⟩
    · rintro (⟨hne, hC, hnB⟩ | ⟨hB, hnA⟩)
      · exact ⟨hne, hC, fun h => hnB (hAB h)⟩
      · exact ⟨fun h => hsB (h ▸ hB), hBC hB, hnA⟩
  · rw [Finset.disjoint_left]
    intro a ha hb
    exact (Finset.mem_sdiff.mp (Finset.mem_of_mem_erase ha)).2 (Finset.mem_sdiff.mp hb).1

end Helpers

section MainSpec

variable {d : Dag}

/-- The conclusions of `genVsegAux_spec` for the two loop-exit paths (loop
exhausted or rule-1/2 break), both of which return no yields and mark `s`
as explored. -/
theorem genVsegAux_exit_spec {s f : Nat} {memo : Finset Nat}
    (hsn : s ≤ d.n) (hsm : s ∉ memo) (hclosed : MemoClosed d memo)
    (hup : ∀ b, s + 1 ≤ b → b ≤ d.n → b ∈ memo)
    (hstate : stateMS d s f = 0) :
    memo ⊆ insert s memo ∧ s ∈ insert s memo ∧
      insert s memo ⊆ memo ∪ Finset.Icc s d.n ∧
      MemoClosed d (insert s memo) ∧
      ((↑([] : List (List Nat)) : Multiset (List Nat)) =
        (∑ a ∈ ((insert s memo) \ memo).erase s, callMS d a) + stateMS d s f) := by
  refine ⟨Finset.subset_insert _ _, Finset.mem_insert_self _ _, ?_, ?_, ?_⟩
  · intro a ha
    rcases Finset.mem_insert.mp ha with rfl | ha
    · exact Finset.mem_union_right _ (Finset.mem_Icc.mpr ⟨le_refl _, hsn⟩)
    · exact Finset.mem_union_left _ ha
  · intro a ha b hb
    rcases Finset.mem_insert.mp ha with rfl | ha
    · rcases Finset.mem_Icc.mp hb with ⟨h1, h2⟩
      rcases Nat.eq_or_lt_of_le h1 with rfl | h1'
      · exact Finset.mem_insert_self _ _
      · exact Finset.mem_insert_of_mem (hup b h1' h2)
    · exact Finset.mem_insert_of_mem (hclosed a ha hb)
  · have hempty : ((insert s memo) \ memo).erase s = ∅ := by
      rw [Finset.eq_empty_iff_forall_not_mem]
      intro a ha
      rw [Finset.mem_erase, Finset.mem_sdiff, Finset.mem_insert] at ha
      rcases ha with ⟨hne, h1 | h2, h3⟩
      · exact hne h1
      · exact h3 h2
    rw [hempty, Finset.sum_empty, hstate]
    rfl

/-- Full characterisation of `genVsegAux` on a topologically ordered DAG:
starting at `s` with frontier `f`, segment `[s..f-1]`, no break so far,
`s` unexplored and an upward-closed memo, the call succeeds (no `assert`
fires), marks exactly `s` plus some interval of larger start indices as
explored, keeps the memo upward closed, and yields exactly one copy of
`callMS d a` for every newly explored start `a ≠ s` plus the pending
yields `stateMS d s f` of the current loop. -/
theorem genVsegAux_spec (Ht : TopoNext d) :
    ∀ (k s f : Nat) (vseg : List Nat) (done : Finset Int) (memo : Finset Nat),
      d.n ≤ f + k →
      s ≤ f → f ≤ d.n →
      vseg = List.range' s (f - s) →
      (∀ g, s ≤ g → g < f → R1R2 d s g) →
      s ∉ memo →
      MemoClosed d memo →
      (s < f → Finset.Icc (s + 1) d.n ⊆ memo) →
      ∃ out memoN,
        genVsegAux d k s f vseg done memo = some (out, memoN) ∧
        memo ⊆ memoN ∧
        s ∈ memoN ∧
        memoN ⊆ memo ∪ Finset.Icc s d.n ∧
        MemoClosed d memoN ∧
        (↑out : Multiset (List Nat)) =
          (∑ a ∈ (memoN \ memo).erase s, callMS d a) + stateMS d s f := by
  intro k
  induction k with
  | zero =>
    intro s f vseg done memo hk hsf hfn hvseg hr12 hsm hclosed hicc
    have hfn' : f = d.n := by omega
    have hup : ∀ b, s + 1 ≤ b → b ≤ d.n → b ∈ memo := by
      intro b hb1 hb2
      rcases Nat.eq_or_lt_of_le hsf with rfl | hlt
      · omega
      · exact hicc hlt (Finset.mem_Icc.mpr ⟨hb1, hb2⟩)
    have hexit := @genVsegAux_exit_spec d s f memo
      (by omega) hsm hclosed hup (stateMS_stop (by omega))
    exact ⟨[], insert s memo,
      by simp only [genVsegAux]; rw [if_neg hsm],
      hexit.1, hexit.2.1, hexit.2.2.1, hexit.2.2.2.1, hexit.2.2.2.2⟩
  | succ k ih =>
    intro s f vseg done memo hk hsf hfn hvseg hr12 hsm hclosed hicc
    by_cases hf : f < d.n
    · subst hvseg
      simp only [genVsegAux]
      rw [if_pos hf]
      by_cases hbreak :
          ¬ shareDeps d (List.range' s (f - s)) f ∨ coupledPrevs d (List.range' s (f - s)) f
      · -- rules 1/2 stop the extension.
        rw [if_pos hbreak]
        have hne : List.range' s (f - s) ≠ [] := by
          intro hnil
          rw [hnil] at hbreak
          rcases hbreak with h1 | h2
          · exact h1 (Or.inl rfl)
          · rcases h2 with ⟨-, hne2⟩
            apply hne2
            simp [segIntSet]
        have hslt : s < f := by
          rw [Ne, List.range'_eq_nil] at hne
          omega
        rw [if_neg hne, if_neg hsm]
        have hnr : ¬ R1R2 d s f := by
          intro hr
          rcases hbreak with h1 | h2
          · exact h1 hr.1
          · exact hr.2 h2
        have hexit := @genVsegAux_exit_spec d s f memo
          (by omega) hsm hclosed
          (fun b hb1 hb2 => hicc hslt (Finset.mem_Icc.mpr ⟨hb1, hb2⟩))
          (stateMS_eq_zero_of_not_r1r2 hsf hnr)
        exact ⟨[], insert s memo, rfl,
          hexit.1, hexit.2.1, hexit.2.2.1, hexit.2.2.2.1, hexit.2.2.2.2⟩
      · -- rules 1/2 pass: the frontier joins the segment.
        rw [if_neg hbreak]
        push_neg at hbreak
        have hR12f : R1R2 d s f := ⟨hbreak.1, hbreak.2⟩
        rw [segRun_concat hsf]
        have hr12' : ∀ g, s ≤ g → g < f + 1 → R1R2 d s g := by
          intro g hg1 hg2
          rcases Nat.lt_or_ge g f with h | h
          · exact hr12 g hg1 h
          · have hgf : g = f := by omega
            subst hgf
            exact hR12f
        cases hscan : r3scan d (segRun s f) f with
        | failAssert => exact absurd hscan (r3scan_ne_failAssert Ht hsf hf)
        | failCont =>
          -- rule 3 fails benignly: extend without yielding.
          simp only [hscan]
          have hslt : s < f := by
            rcases Nat.eq_or_lt_of_le hsf with rfl | hlt
            · exact absurd (r3scan_singleton_pass Ht hf)
                (by rw [hscan]; exact fun h => R3Res.noConfusion h)
            · exact hlt
          have hnrun : ¬ RunOK d s f := by
            intro hrun
            exact absurd ((r3scan_pass_iff _ f).mpr hrun.2)
              (by rw [hscan]; exact fun h => R3Res.noConfusion h)
          obtain ⟨out, memoN, heq, h1, h2, h3, h4, h5⟩ :=
            ih s (f + 1) (segRun s f) done memo (by omega) (by omega) (by omega) rfl hr12'
              hsm hclosed (fun _ => hicc hslt)
          refine ⟨out, memoN, heq, h1, h2, ?_, h4, ?_⟩
          · intro a ha
            rcases Finset.mem_union.mp (h3 ha) with h | h
            · exact Finset.mem_union_left _ h
            · exact Finset.mem_union_right _ h
          · rw [h5, stateMS_step hf, if_neg hnrun]
        | pass =>
          -- rule 3 passes: yield, then maybe recurse at `f + 1`.
          have hrun : RunOK d s f := by
            constructor
            · intro g hg
              rw [Finset.mem_Icc] at hg
              exact hr12' g hg.1 (by omega)
            · exact (r3scan_pass_iff _ f).mp hscan
          by_cases hmem : f + 1 ∈ memo
          · simp only [hscan, if_pos hmem]
            have hicc' : s < f + 1 → Finset.Icc (s + 1) d.n ⊆ memo := by
              intro _
              rcases Nat.eq_or_lt_of_le hsf with rfl | hlt
              · exact hclosed (s + 1) hmem
              · exact hicc hlt
            obtain ⟨rest, memo₁, heq, h1, h2, h3, h4, h5⟩ :=
              ih s (f + 1) (segRun s f) done memo (by omega) (by omega) (by omega) rfl hr12'
                hsm hclosed hicc'
            simp only [heq]
            refine ⟨segRun s f :: rest, memo₁, rfl, h1, h2, ?_, h4, ?_⟩
            · intro a ha
              rcases Finset.mem_union.mp (h3 ha) with h | h
              · exact Finset.mem_union_left _ h
              · exact Finset.mem_union_right _ h
            · rw [← Multiset.cons_coe, h5, stateMS_step hf, if_pos hrun,
                ← Multiset.singleton_add, ← Multiset.singleton_add]
              abel
          · simp only [hscan, if_neg hmem]
            obtain ⟨sub, memo₁, heqA, hA1, hA2, hA3, hA4, hA5⟩ :=
              ih (f + 1) (f + 1) [] (done ∪ segIntSet (segRun s f)) memo (by omega)
                (le_refl _) (by omega) (by rw [Nat.sub_self, List.range'_zero])
                (fun g hg1 hg2 => absurd hg2 (by omega)) hmem hclosed
                (fun h => absurd h (lt_irrefl _))
            simp only [heqA]
            have hsm₁ : s ∉ memo₁ := by
              intro h
              rcases Finset.mem_union.mp (hA3 h) with h' | h'
              · exact hsm h'
              · rw [Finset.mem_Icc] at h'
                omega
            have hicc₁ : s < f + 1 → Finset.Icc (s + 1) d.n ⊆ memo₁ := by
              intro _
              rcases Nat.eq_or_lt_of_le hsf with rfl | hlt
              · exact hA4 (s + 1) hA2
              · exact (hicc hlt).trans hA1
            obtain ⟨rest, memo₂, heqB, hB1, hB2, hB3, hB4, hB5⟩ :=
              ih s (f + 1) (segRun s f) done memo₁ (by omega) (by omega) (by omega) rfl hr12'
                hsm₁ hA4 hicc₁
            simp only [heqB]
            refine ⟨segRun s f :: (sub ++ rest), memo₂, rfl, hA1.trans hB1, hB2, ?_, hB4, ?_⟩
            · intro a ha
              rcases Finset.mem_union.mp (hB3 ha) with h | h
              · rcases Finset.mem_union.mp (hA3 h) with h' | h'
                · exact Finset.mem_union_left _ h'
                · rw [Finset.mem_Icc] at h'
                  exact Finset.mem_union_right _ (Finset.mem_Icc.mpr ⟨by omega, h'.2⟩)
              · exact Finset.mem_union_right _ h
            · obtain ⟨hdecomp, hdisj⟩ := sdiff_erase_decomp hA1 hB1 hsm₁
              have hf1 : f + 1 ∈ memo₁ \ memo := Finset.mem_sdiff.mpr ⟨hA2, hmem⟩
              rw [← Multiset.cons_coe, ← Multiset.coe_add, hA5, hB5,
                stateMS_step hf, if_pos hrun, hdecomp, Finset.sum_union hdisj,
                ← Finset.add_sum_erase _ _ hf1, ← Multiset.singleton_add,
                ← Multiset.singleton_add]
              simp only [callMS]
              abel

    · -- frontier already past the end: loop exhausted.
      have hup : ∀ b, s + 1 ≤ b → b ≤ d.n → b ∈ memo := by
        intro b hb1 hb2
        rcases Nat.eq_or_lt_of_le hsf with rfl | hlt
        · omega
        · exact hicc hlt (Finset.mem_Icc.mpr ⟨hb1, hb2⟩)
      have hexit := @genVsegAux_exit_spec d s f memo
        (by omega) hsm hclosed hup (stateMS_stop (by omega))
      exact ⟨[], insert s memo,
        by simp only [genVsegAux]; rw [if_neg hf, if_neg hsm],
        hexit.1, hexit.2.1, hexit.2.2.1, hexit.2.2.2.1, hexit.2.2.2.2⟩

end MainSpec

section TopLevel

variable {d : Dag}

/-- A full top-level pass `self._gen_vseg()` succeeds (no assertion
fires), explores every start index `0..n`, and yields exactly the runs of
`callMS d a` for every start `a`. -/
theorem genVseg_char (Ht : TopoNext d) :
    ∃ out, genVseg d = some (out, Finset.Icc 0 d.n) ∧
      (↑out : Multiset (List Nat)) = ∑ a ∈ Finset.range d.n, callMS d a := by
  obtain ⟨out, memoF, heq, h1, h2, h3, h4, h5⟩ :=
    genVsegAux_spec Ht d.n 0 0 [] {(-1 : Int)} ∅ (by omega) (le_refl _) (Nat.zero_le _)
      (by rw [Nat.sub_self, List.range'_zero]) (fun g hg1 hg2 => absurd hg2 (by omega))
      (Finset.not_mem_empty _) (fun a ha => absurd ha (Finset.not_mem_empty _))
      (fun h => absurd h (lt_irrefl _))
  have hmemo : memoF = Finset.Icc 0 d.n := by
    apply Finset.Subset.antisymm
    · intro a ha
      rcases Finset.mem_union.mp (h3 ha) with h | h
      · exact absurd h (Finset.not_mem_empty _)
      · exact h
    · exact h4 0 h2
  refine ⟨out, by rw [genVseg, heq, hmemo], ?_⟩
  rw [h5, Finset.sdiff_empty, show stateMS d 0 0 = callMS d 0 from rfl, add_comm,
    Finset.add_sum_erase _ _ h2, hmemo]
  have hIcc : Finset.Icc 0 d.n = insert d.n (Finset.range d.n) := by
    ext a
    simp only [Finset.mem_Icc, Finset.mem_insert, Finset.mem_range]
    omega
  rw [hIcc, Finset.sum_insert (by simp), show callMS d d.n = 0 from stateMS_stop (le_refl _),
    zero_add]

theorem segRun_head {a b : Nat} (h : a ≤ b) : (segRun a b).head? = some a := by
  have h1 : b + 1 - a = (b - a) + 1 := by omega
  rw [segRun, h1, List.range'_succ]
  rfl

theorem segRun_inj {a b a₂ b₂ : Nat} (h : a ≤ b) (h₂ : a₂ ≤ b₂)
    (heq : segRun a b = segRun a₂ b₂) : a = a₂ ∧ b = b₂ := by
  have ha : a = a₂ := by
    have t1 := segRun_head h
    have t2 := segRun_head h₂
    rw [heq, t2] at t1
    exact (Option.some_inj.mp t1).symm
  subst ha
  have hl : (segRun a b).length = (segRun a b₂).length := by rw [heq]
  rw [segRun, segRun, List.length_range', List.length_range'] at hl
  exact ⟨rfl, by omega⟩

theorem mem_callMS {a : Nat} {v : List Nat} :
    v ∈ callMS d a ↔ ∃ b, a ≤ b ∧ b < d.n ∧ RunOK d a b ∧ v = segRun a b := by
  rw [callMS, stateMS]
  simp only [Multiset.mem_map, Finset.mem_val, Finset.mem_filter, Finset.mem_Ico]
  constructor
  · rintro ⟨b, ⟨⟨hab, hbn⟩, hrun⟩, rfl⟩
    exact ⟨b, hab, hbn, hrun, rfl⟩
  · rintro ⟨b, hab, hbn, hrun, rfl⟩
    exact ⟨b, ⟨⟨hab, hbn⟩, hrun⟩, rfl⟩

theorem callMS_nodup (a : Nat) : (callMS d a).Nodup := by
  rw [callMS, stateMS]
  apply Multiset.Nodup.map_on
  · intro x hx y hy hxy
    rw [Finset.mem_val, Finset.mem_filter, Finset.mem_Ico] at hx hy
    exact (segRun_inj hx.1.1 hy.1.1 hxy).2
  · exact (Finset.filter _ _).nodup

theorem callMS_disjoint {a a₂ : Nat} (hne : a ≠ a₂) :
    (callMS d a).Disjoint (callMS d a₂) := by
  intro v hv hv₂
  rw [mem_callMS] at hv hv₂
  obtain ⟨b, hab, -, -, rfl⟩ := hv
  obtain ⟨b₂, hab₂, -, -, heq⟩ := hv₂
  exact hne (segRun_inj hab hab₂ heq).1

theorem nodup_sum_callMS (A : Finset Nat) : Multiset.Nodup (∑ a ∈ A, callMS d a) := by
  induction A using Finset.induction_on with
  | empty => simp
  | insert hnotmem ih =>
    rename_i a A
    rw [Finset.sum_insert hnotmem, Multiset.nodup_add]
    refine ⟨callMS_nodup _, ih, Multiset.disjoint_left.mpr ?_⟩
    intro v hv hv₂
    obtain ⟨a₂, ha₂, hv₂⟩ := (Finset.mem_sum _ _).mp hv₂
    exact callMS_disjoint (fun h => hnotmem (by rw [h]; exact ha₂)) hv hv₂

/-- Output shape of a full top-level pass: it succeeds, the yielded list
has no duplicates, and its members are exactly the contiguous runs
`[a..b]` passing all rule checks. -/
theorem genVseg_out (Ht : TopoNext d) :
    ∃ out memoF, genVseg d = some (out, memoF) ∧
      out.Nodup ∧
      ∀ v : List Nat, v ∈ out ↔
        ∃ a b, a ≤ b ∧ b < d.n ∧ RunOK d a b ∧ v = segRun a b := by
  obtain ⟨out, heq, hchar⟩ := genVseg_char Ht
  refine ⟨out, _, heq, ?_, ?_⟩
  · rw [← Multiset.coe_nodup, hchar]
    exact nodup_sum_callMS _
  · intro v
    rw [← Multiset.mem_coe, hchar, Finset.mem_sum]
    constructor
    · rintro ⟨a, ha, hv⟩
      obtain ⟨b, h1, h2, h3, h4⟩ := mem_callMS.mp hv
      exact ⟨a, b, h1, h2, h3, h4⟩
    · rintro ⟨a, b, h1, h2, h3, h4⟩
      exact ⟨a, Finset.mem_range.mpr (by omega), mem_callMS.mpr ⟨b, h1, h2, h3, h4⟩⟩

end TopLevel

section Rules

variable {d : Dag}

theorem segRun_length {a b : Nat} : (segRun a b).length = b + 1 - a := by
  rw [segRun, List.length_range']

theorem segRun_getD {a b k : Nat} (hk : k < b + 1 - a) : (segRun a b).getD k 0 = a + k := by
  rw [List.getD_eq_getElem _ _ (by rw [segRun_length]; omega)]
  exact List.getElem_range'_1 _ _

theorem segRun_take {a b k : Nat} (hk : k ≤ b + 1 - a) :
    (segRun a b).take k = List.range' a k := by
  have hsplit : List.range' a k ++ List.range' (a + 1 * k) ((b + 1 - a) - k) =
      List.range' a (((b + 1 - a) - k) + k) := List.range'_append _ _ _ _
  have hcount : ((b + 1 - a) - k) + k = b + 1 - a := by omega
  rw [hcount] at hsplit
  have heq : segRun a b = List.range' a k ++ List.range' (a + 1 * k) ((b + 1 - a) - k) := by
    rw [hsplit]; rfl
  rw [heq]
  exact List.take_left' (List.length_range' _ _ _)

/-- On contiguous runs over a topologically ordered DAG, the per-step
checks performed by the code coincide with the three rules as the spec
states them. -/
theorem runOK_iff_rules (Hp : TopoPrev d) {a b : Nat} (hab : a ≤ b) (hbn : b < d.n) :
    RunOK d a b ↔ ruleR1 d (segRun a b) ∧ ruleR2 d (segRun a b) ∧ ruleR3 d (segRun a b) := by
  constructor
  · rintro ⟨h12, h3⟩
    refine ⟨?_, ?_, h3⟩
    · -- R1
      intro k hk hk0
      rw [segRun_length] at hk
      have hmem : a + k ∈ Finset.Icc a b := Finset.mem_Icc.mpr ⟨by omega, by omega⟩
      have h := (h12 (a + k) hmem).1
      rcases h with hnil | hint
      · rw [Nat.add_sub_cancel_left, List.range'_eq_nil] at hnil
        omega
      · rw [segRun_getD hk, segRun_take (by omega)]
        rw [Nat.add_sub_cancel_left] at hint
        exact hint
    · -- R2
      intro x hx hcard y hy hymem
      rw [mem_segRun hab] at hx hy
      have hyx : y < x := by
        have h := Hp x (by omega) _ hymem
        exact_mod_cast h
      have h := (h12 x (Finset.mem_Icc.mpr hx)).2
      apply h
      refine ⟨hcard, ?_⟩
      refine Finset.ne_empty_of_mem (?_ : (y : Int) ∈ _)
      rw [Finset.mem_inter]
      refine ⟨hymem, ?_⟩
      rw [mem_segIntSet]
      have hyr : y ∈ List.range' a (x - a) := by
        rw [List.mem_range'_1]
        omega
      exact ⟨y, hyr, rfl⟩
  · rintro ⟨h1, h2, h3⟩
    refine ⟨?_, h3⟩
    intro g hg
    rw [Finset.mem_Icc] at hg
    rcases Nat.eq_or_lt_of_le hg.1 with rfl | hag
    · exact R1R2_self _
    · constructor
      · right
        have hr1 := h1 (g - a) (by rw [segRun_length]; omega) (by omega)
        rw [segRun_getD (by omega), segRun_take (by omega)] at hr1
        have hga : a + (g - a) = g := by omega
        rw [hga] at hr1
        exact hr1
      · rintro ⟨hcard, hne⟩
        obtain ⟨z, hz⟩ := Finset.nonempty_iff_ne_empty.mpr hne
        rw [Finset.mem_inter] at hz
        have hz2 := hz.2
        rw [mem_segIntSet] at hz2
        obtain ⟨y, hy, rfl⟩ := hz2
        rw [List.mem_range'_1] at hy
        have hgv : g ∈ segRun a b := (mem_segRun hab).mpr ⟨hg.1, hg.2⟩
        have hyv : y ∈ segRun a b := (mem_segRun hab).mpr ⟨by omega, by omega⟩
        exact h2 g hgv hcard y hyv hz.1

end Rules

/-! ## Claims about the segment enumerator -/

/-- C1, counterexample to the claim as stated: for the network `netCX`
construction succeeds, `[0, 2]` is a strictly increasing vseg over the
frozen ordered vertex set (three vertices) that satisfies rules R1, R2
and R3 with respect to the computed adjacency, yet the single top-level
pass of `_gen_vseg` yields exactly `[0], [1], [2], [0,1], [0,1,2]` — it
omits `[0, 2]`, because the enumerator only ever builds contiguous runs
of vertex indices. -/
theorem claim_C1_counterexample :
    calcSchedDag netCX ≠ none ∧
    cxDag.n = 3 ∧
    List.Pairwise (· < ·) [0, 2] ∧
    ruleR1 cxDag [0, 2] ∧ ruleR2 cxDag [0, 2] ∧ ruleR3 cxDag [0, 2] ∧
    (genVseg cxDag).map Prod.fst = some [[0], [1], [2], [0, 1], [0, 1, 2]] ∧
    [0, 2] ∉ [[0], [1], [2], [0, 1], [0, 1, 2]] := by
  decide

/-- C1 (amended): over a scheduling DAG whose vertex order is topological
(the invariant the construction guarantees, spec §3), one top-level pass
of the segment enumerator succeeds — despite the per-pass memo — and
yields exactly the *contiguous* vsegs `[a..b]` that satisfy rules R1, R2
and R3, each exactly once (no omission and no duplication). -/
theorem claim_C1 (d : Dag) (Ht : TopoNext d) (Hp : TopoPrev d) :
    ∃ out memoF, genVseg d = some (out, memoF) ∧ out.Nodup ∧
      ∀ v : List Nat, v ∈ out ↔
        ∃ a b, a ≤ b ∧ b < d.n ∧ v = segRun a b ∧
          ruleR1 d v ∧ ruleR2 d v ∧ ruleR3 d v := by
  obtain ⟨out, memoF, heq, hnodup, hmem⟩ := genVseg_out Ht
  refine ⟨out, memoF, heq, hnodup, ?_⟩
  intro v
  rw [hmem v]
  constructor
  · rintro ⟨a, b, h1, h2, h3, rfl⟩
    have hr := (runOK_iff_rules Hp h1 h2).mp h3
    exact ⟨a, b, h1, h2, rfl, hr.1, hr.2.1, hr.2.2⟩
  · rintro ⟨a, b, h1, h2, rfl, hr1, hr2, hr3⟩
    exact ⟨a, b, h1, h2, (runOK_iff_rules Hp h1 h2).mpr ⟨hr1, hr2, hr3⟩, rfl⟩

/-- Witness for C1 (amended), instantiated on the concrete DAG of
`netCX`. -/
theorem claim_C1_witness :
    TopoNext cxDag ∧ TopoPrev cxDag ∧
    (∃ out memoF, genVseg cxDag = some (out, memoF) ∧ out.Nodup ∧
      ∀ v : List Nat, v ∈ out ↔
        ∃ a b, a ≤ b ∧ b < cxDag.n ∧ v = segRun a b ∧
          ruleR1 cxDag v ∧ ruleR2 cxDag v ∧ ruleR3 cxDag v) :=
  ⟨by decide, by decide, claim_C1 cxDag (by decide) (by decide)⟩

/-- C2: every vseg yielded by the enumerator satisfies, with respect to
the computed vertex adjacency, R1 (each vertex added after the first has
a predecessor set intersecting the union of the earlier vseg members and
their predecessor sets), R2 (no yielded vseg contains a vertex with more
than one predecessor together with one of its predecessors) and R3 (each
member's successor set is disjoint from the vseg or contained in it). -/
theorem claim_C2 (d : Dag) (Ht : TopoNext d) (Hp : TopoPrev d)
    (out : List (List Nat)) (memoF : Finset Nat)
    (h : genVseg d = some (out, memoF)) :
    ∀ v ∈ out, ruleR1 d v ∧ ruleR2 d v ∧ ruleR3 d v := by
  obtain ⟨out₂, memoF₂, heq, hnodup, hmem⟩ := genVseg_out Ht
  rw [heq] at h
  have hout : out₂ = out := congrArg Prod.fst (Option.some_inj.mp h)
  subst hout
  intro v hv
  obtain ⟨a, b, h1, h2, h3, rfl⟩ := (hmem v).mp hv
  exact (runOK_iff_rules Hp h1 h2).mp h3

/-- Witness for C2 on the concrete DAG of `netCX` and its concrete
enumeration output. -/
theorem claim_C2_witness :
    genVseg cxDag = some ([[0], [1], [2], [0, 1], [0, 1, 2]], {0, 1, 2, 3}) ∧
    ∀ v ∈ [[0], [1], [2], [0, 1], [0, 1, 2]],
      ruleR1 cxDag v ∧ ruleR2 cxDag v ∧ ruleR3 cxDag v :=
  ⟨by decide, claim_C2 cxDag (by decide) (by decide) [[0], [1], [2], [0, 1], [0, 1, 2]]
     {0, 1, 2, 3} (by decide)⟩

/-- C8: on a topologically ordered DAG (every successor index exceeds the
vertex's index), whenever a member `idx` of the current contiguous vseg
`[s..f]` has successors missing from the vseg, the smallest missing
successor index strictly exceeds the frontier `f`; consequently the
assertion `min(nexts.difference(vseg)) > frontier` never fires and a full
top-level pass never aborts. -/
theorem claim_C8 (d : Dag) (Ht : TopoNext d) :
    (∀ s f idx : Nat, s ≤ idx → idx ≤ f → f < d.n →
      ∀ hne : (d.nexts idx \ (segRun s f).toFinset).Nonempty,
        f < (d.nexts idx \ (segRun s f).toFinset).min' hne) ∧
    ∃ p, genVseg d = some p := by
  constructor
  · intro s f idx h1 h2 h3 hne
    have hmem := Finset.min'_mem _ hne
    rw [Finset.mem_sdiff, List.mem_toFinset, mem_segRun (by omega : s ≤ f)] at hmem
    have := Ht idx (by omega) _ hmem.1
    omega
  · obtain ⟨out, heq, -⟩ := genVseg_char Ht
    exact ⟨_, heq⟩

/-- Witness for C8 on the concrete DAG of `netCX`: vertex `0` has the
successor `1` outside the singleton vseg `[0]`, and the minimum missing
successor exceeds the frontier `0`. -/
theorem claim_C8_witness :
    TopoNext cxDag ∧
    (∀ hne : (cxDag.nexts 0 \ (segRun 0 0).toFinset).Nonempty,
      0 < (cxDag.nexts 0 \ (segRun 0 0).toFinset).min' hne) ∧
    (cxDag.nexts 0 \ (segRun 0 0).toFinset).Nonempty ∧
    ∃ p, genVseg cxDag = some p :=
  ⟨by decide,
   fun hne => (claim_C8 cxDag (by decide)).1 0 0 0 (le_refl 0) (le_refl 0) (by decide) hne,
   by decide,
   (claim_C8 cxDag (by decide)).2⟩

/-- C9: every vseg yielded by an invocation of `_gen_vseg` starting at
`vertex_idx = s` is a contiguous run `[a, a+1, ..., b]` of vertex indices
with `s ≤ a` (in particular every index is nonnegative, so the sentinel
input vertex `-1` — unrepresentable in the `Nat`-indexed run — never
appears), hence every pipelined candidate segment groups vertices that
are consecutive in the topological order. -/
theorem claim_C9 (d : Dag) (Ht : TopoNext d) (fuel s : Nat) (done : Finset Int)
    (memo : Finset Nat) (hfuel : d.n ≤ s + fuel) (hs : s ≤ d.n) (hsm : s ∉ memo)
    (hclosed : MemoClosed d memo) (out : List (List Nat)) (memoF : Finset Nat)
    (h : genVsegAux d fuel s s [] done memo = some (out, memoF)) :
    ∀ v ∈ out, ∃ a b, s ≤ a ∧ a ≤ b ∧ b < d.n ∧ v = segRun a b := by
  obtain ⟨out₂, memo₂, heq, h1, h2, h3, h4, h5⟩ :=
    genVsegAux_spec Ht fuel s s [] done memo hfuel (le_refl _) hs
      (by rw [Nat.sub_self, List.range'_zero]) (fun g hg1 hg2 => absurd hg2 (by omega))
      hsm hclosed (fun hh => absurd hh (lt_irrefl _))
  rw [heq] at h
  have hout : out₂ = out := congrArg Prod.fst (Option.some_inj.mp h)
  subst hout
  intro v hv
  have hv₂ : v ∈ (↑out₂ : Multiset (List Nat)) := hv
  rw [h5] at hv₂
  rcases Multiset.mem_add.mp hv₂ with hL | hR
  · obtain ⟨a, ha, hva⟩ := (Finset.mem_sum _ _).mp hL
    rw [Finset.mem_erase, Finset.mem_sdiff] at ha
    have ha₂ : s ≤ a := by
      rcases Finset.mem_union.mp (h3 ha.2.1) with hm | hm
      · exact absurd hm ha.2.2
      · exact (Finset.mem_Icc.mp hm).1
    obtain ⟨b, hab, hbn, -, rfl⟩ := mem_callMS.mp hva
    exact ⟨a, b, ha₂, hab, hbn, rfl⟩
  · obtain ⟨b, hab, hbn, -, rfl⟩ := mem_callMS.mp hR
    exact ⟨s, b, le_refl _, hab, hbn, rfl⟩

/-- Witness for C9: the invocation of `_gen_vseg` starting at vertex `1`
on the concrete DAG of `netCX` yields `[1]` and `[2]`, both contiguous
runs starting at or above `1`. -/
theorem claim_C9_witness :
    genVsegAux cxDag 3 1 1 [] {(-1 : Int)} ∅ = some ([[1], [2]], {1, 2, 3}) ∧
    ∀ v ∈ [[1], [2]], ∃ a b, 1 ≤ a ∧ a ≤ b ∧ b < cxDag.n ∧ v = segRun a b :=
  ⟨by decide,
   claim_C9 cxDag (by decide) 3 1 {(-1 : Int)} ∅ (by decide) (by decide)
     (Finset.not_mem_empty _) (fun a ha => absurd ha (Finset.not_mem_empty _))
     [[1], [2]] {1, 2, 3} (by decide)⟩

/-! ## Claims about the constructor and the DAG builder -/

/-- C7: the constructor fails with a configuration error (a `TypeError`
or `ValueError` raised by the argument checks) if and only if `network`
is not a `Network` instance, `resource` is not a `Resource` instance, or
`max_util_drop` lies outside `[0, 1]`; with proper instances and an
in-range drop the argument checks raise no error.  The equivalence holds
for every network, so a configuration error pre-empts the DAG build and
no partially constructed result exists (the outcome is the error
itself). -/
theorem claim_C7 (networkIsNetwork resourceIsResource : Bool) (net : Network)
    (maxUtilDrop : ℚ) :
    isConfigError
        (interLayerPipelineInit networkIsNetwork resourceIsResource net maxUtilDrop) ↔
      (networkIsNetwork = false ∨ resourceIsResource = false ∨
        maxUtilDrop < 0 ∨ 1 < maxUtilDrop) := by
  unfold interLayerPipelineInit
  rcases networkIsNetwork with _ | _
  · simp [isConfigError]
  · rcases resourceIsResource with _ | _
    · simp [isConfigError]
    · rw [if_neg (by simp), if_neg (by simp)]
      by_cases h : 0 ≤ maxUtilDrop ∧ maxUtilDrop ≤ 1
      · rw [if_neg (not_not_intro h)]
        have hr : ¬ ((true : Bool) = false ∨ (true : Bool) = false ∨
            maxUtilDrop < 0 ∨ 1 < maxUtilDrop) := by
          push_neg
          exact ⟨by simp, by simp, h.1, h.2⟩
        cases hcd : calcSchedDag net with
        | none => exact iff_of_false (by simp [isConfigError]) hr
        | some sd => exact iff_of_false (by simp [isConfigError]) hr
      · rw [if_pos h]
        refine iff_of_true (Or.inr rfl) ?_
        right
        right
        rcases not_and_or.mp h with h1 | h2
        · exact Or.inl (not_le.mp h1)
        · exact Or.inr (not_le.mp h2)

theorem findMergeIdx_none_iff (net : Network) (prevs : Finset String)
    (acc : List (List String)) :
    ∀ k, findMergeIdx net prevs acc k = none ↔
      ∀ i, i < k → ¬ mergeOk net prevs (acc.getD i []) := by
  intro k
  induction k with
  | zero => simp [findMergeIdx]
  | succ k ih =>
    rw [findMergeIdx]
    split
    · rename_i hk
      apply iff_of_false (by simp)
      push_neg
      exact ⟨k, by omega, hk⟩
    · rename_i hk
      rw [ih]
      constructor
      · intro h i hi
        rcases Nat.lt_or_ge i k with h2 | h2
        · exact h i h2
        · have hik : i = k := by omega
          subst hik
          exact hk
      · intro h i hi
        exact h i (by omega)

theorem findMergeIdx_eq_some (net : Network) (prevs : Finset String)
    (acc : List (List String)) :
    ∀ k i, i < k → mergeOk net prevs (acc.getD i []) →
      (∀ j, i < j → j < k → ¬ mergeOk net prevs (acc.getD j [])) →
      findMergeIdx net prevs acc k = some i := by
  intro k
  induction k with
  | zero => intro i hi; omega
  | succ k ih =>
    intro i hi hok hmax
    rw [findMergeIdx]
    split
    · rename_i hk
      rcases Nat.lt_or_ge i k with h2 | h2
      · exact absurd hk (hmax k h2 (by omega))
      · have hik : i = k := by omega
        rw [hik]
    · rename_i hk
      have h2 : i < k := by
        rcases Nat.lt_or_ge i k with h2 | h2
        · exact h2
        · have hik : i = k := by omega
          rw [hik] at hok
          exact absurd hok hk
      exact ih i h2 hok (fun j hj1 hj2 => hmax j hj1 (by omega))

/-- C6: in the DAG builder, every filtered (`ConvLayer`) layer starts a
new singleton vertex; a mergeable layer is appended to the most recently
created vertex (the one with the largest index, since vertices are
appended in creation order) whose head is disjoint from the layer's
predecessor set, whose tail is among the predecessors, and whose tail has
exactly one successor entry; when no vertex is eligible the layer becomes
a new singleton vertex, and merging appends at the end of the vertex so
relative layer order is preserved.  In particular, on `netMerge`, the
mergeable layer `F` whose sole predecessor is the tail `B` of vertex
`(A, B)`, `F` being `B`'s only successor, produces the merged vertex
`(A, B, F)`. -/
theorem claim_C6 :
    (∀ (net : Network) (acc : List (List String)) (l : String),
      net.isConv l = true → buildStep net acc l = some (acc ++ [[l]])) ∧
    (∀ (net : Network) (acc : List (List String)) (l : String),
      net.isConv l = false → (net.prevLayers l).toFinset ≠ ∅ →
      ∀ i, i < acc.length → mergeOk net ((net.prevLayers l).toFinset) (acc.getD i []) →
        (∀ j, i < j → j < acc.length →
          ¬ mergeOk net ((net.prevLayers l).toFinset) (acc.getD j [])) →
        buildStep net acc l = some (acc.set i (acc.getD i [] ++ [l]))) ∧
    (∀ (net : Network) (acc : List (List String)) (l : String),
      net.isConv l = false → (net.prevLayers l).toFinset ≠ ∅ →
      (∀ i, i < acc.length → ¬ mergeOk net ((net.prevLayers l).toFinset) (acc.getD i [])) →
      buildStep net acc l = some (acc ++ [[l]])) ∧
    buildVertexSet netMerge = some [["A", "B", "F"]] := by
  refine ⟨?_, ?_, ?_, by decide⟩
  · intro net acc l hconv
    unfold buildStep
    rw [if_pos hconv]
  · intro net acc l hconv hne i hi hok hmax
    unfold buildStep
    rw [hconv]
    rw [if_neg (by simp), if_neg hne,
      findMergeIdx_eq_some net _ acc acc.length i hi hok hmax]
  · intro net acc l hconv hne hnone
    unfold buildStep
    rw [hconv]
    rw [if_neg (by simp), if_neg hne,
      (findMergeIdx_none_iff net _ acc acc.length).mpr hnone]

/-- Witness for C6: the scenario instance — mergeable `F` with sole
predecessor `B`, the tail of the only vertex `(A, B)`, merges into it. -/
theorem claim_C6_witness :
    netMerge.isConv "F" = false ∧
    (netMerge.prevLayers "F").toFinset ≠ ∅ ∧
    mergeOk netMerge ((netMerge.prevLayers "F").toFinset) ([["A", "B"]].getD 0 []) ∧
    buildStep netMerge [["A", "B"]] "F" =
      some ([["A", "B"]].set 0 ([["A", "B"]].getD 0 [] ++ ["F"])) ∧
    [["A", "B"]].set 0 ([["A", "B"]].getD 0 [] ++ ["F"]) = [["A", "B", "F"]] :=
  ⟨by decide, by decide, by decide,
   claim_C6.2.1 netMerge [["A", "B"]] "F" (by decide) (by decide) 0 (by decide) (by decide)
     (fun j hj1 hj2 => absurd hj1 (by simp at hj2; omega)),
   by decide⟩

/-! ## Claims about the orchestrator -/

theorem firstsFold_all_valid (valid : List (List String) → Bool) :
    ∀ (ls : List String), (∀ l ∈ ls, valid [[l]] = true) →
      ∀ acc : List (List (List String)),
        ls.foldlM (fun acc layer =>
          if valid [[layer]] then some (acc ++ [[[layer]]]) else none) acc =
        some (acc ++ ls.map (fun l => [[l]])) := by
  intro ls
  induction ls with
  | nil =>
    intro _ acc
    simp
  | cons l rest ih =>
    intro hv acc
    rw [List.foldlM_cons, if_pos (hv l (List.mem_cons_self _ _))]
    show (rest.foldlM _ (acc ++ [[[l]]]))  = _
    rw [ih (fun x hx => hv x (List.mem_cons_of_mem _ hx)) (acc ++ [[[l]]])]
    simp

theorem firstsFold_invalid (valid : List (List String) → Bool) :
    ∀ (ls : List String), (∃ l ∈ ls, valid [[l]] = false) →
      ∀ acc : List (List (List String)),
        ls.foldlM (fun acc layer =>
          if valid [[layer]] then some (acc ++ [[[layer]]]) else none) acc = none := by
  intro ls
  induction ls with
  | nil =>
    rintro ⟨l, hl, -⟩
    exact absurd hl (List.not_mem_nil _)
  | cons l rest ih =>
    rintro ⟨x, hx, hxv⟩ acc
    rw [List.foldlM_cons]
    by_cases hl : valid [[l]] = true
    · rw [if_pos hl]
      have hrest : ∃ y ∈ rest, valid [[y]] = false := by
        rcases List.mem_cons.mp hx with rfl | hx2
        · rw [hl] at hxv
          exact absurd hxv (by simp)
        · exact ⟨x, hx2, hxv⟩
      show (rest.foldlM _ (acc ++ [[[l]]])) = none
      exact ih hrest (acc ++ [[[l]]])
    · rw [if_neg hl]
      rfl

/-- C5: with both `partition_interlayer` and `hw_gbuf_save_writeback`
false, `gen_segment` yields exactly one segment per network layer — the
single-stage single-layer segment `((L,),)` in network iteration order —
and nothing else (provided the validator accepts the trivial segments, as
the code asserts it must); and for every option setting the per-layer
singleton segments are always yielded, as a prefix of the output. -/
theorem claim_C5 (net : Network) (sd : SchedDag) (valid : List (List String) → Bool)
    (hvalid : ∀ l ∈ net.layers, valid [[l]] = true) (Ht : TopoNext sd.toDag) :
    genSegment net sd ⟨false, false⟩ valid = some (net.layers.map (fun l => [[l]])) ∧
    ∀ opts : SegOptions, ∃ rest,
      genSegment net sd opts valid = some (net.layers.map (fun l => [[l]]) ++ rest) := by
  obtain ⟨out, heq, -⟩ := @genVseg_char sd.toDag Ht
  have hmapnil : ∀ l : List (List Nat),
      (l.map (fun _ => ([] : List (List (List String))))).flatten = [] := by
    intro l
    induction l with
    | nil => rfl
    | cons x xs ih => simpa using ih
  constructor
  · unfold genSegment
    rw [firstsFold_all_valid valid net.layers hvalid []]
    simp only [heq]
    have hcands : ∀ vseg : List Nat,
        (segCands sd.vertexList ⟨false, false⟩ vseg).filter valid = [] := fun _ => rfl
    simp only [hcands, hmapnil, List.append_nil, List.nil_append]
  · intro opts
    unfold genSegment
    rw [firstsFold_all_valid valid net.layers hvalid []]
    simp only [heq, List.nil_append]
    exact ⟨_, rfl⟩

/-- Witness for C5 on `netCX` with an all-accepting validator. -/
theorem claim_C5_witness :
    TopoNext cxSd.toDag ∧
    (genSegment netCX cxSd ⟨false, false⟩ (fun _ => true) =
        some (netCX.layers.map (fun l => [[l]])) ∧
      ∀ opts : SegOptions, ∃ rest,
        genSegment netCX cxSd opts (fun _ => true) =
          some (netCX.layers.map (fun l => [[l]]) ++ rest)) :=
  ⟨by decide, claim_C5 netCX cxSd (fun _ => true) (fun l hl => rfl) (by decide)⟩

/-- C10: `gen_segment` asserts that the external validator accepts each
trivial per-layer single-stage segment before yielding it; if the
validator rejects one, the whole enumeration aborts with an
`AssertionError` (modelled as `none`) rather than skipping the segment or
yielding it unvalidated.  By contrast, when all trivial segments are
accepted the enumeration completes, with rejected vseg-derived candidates
silently filtered out. -/
theorem claim_C10 (net : Network) (sd : SchedDag) (opts : SegOptions)
    (valid : List (List String) → Bool) :
    ((∃ l ∈ net.layers, valid [[l]] = false) →
      genSegment net sd opts valid = none) ∧
    ((∀ l ∈ net.layers, valid [[l]] = true) → TopoNext sd.toDag →
      ∃ out, genSegment net sd opts valid = some out) := by
  constructor
  · intro hbad
    unfold genSegment
    rw [firstsFold_invalid valid net.layers hbad []]
  · intro hv Ht
    obtain ⟨out, heq, -⟩ := @genVseg_char sd.toDag Ht
    unfold genSegment
    rw [firstsFold_all_valid valid net.layers hv []]
    simp only [heq]
    exact ⟨_, rfl⟩

section SegDedup

variable {vl : List (List String)}

theorem getD_ne_nil (hne : ∀ v ∈ vl, v ≠ []) {i : Nat} (hi : i < vl.length) :
    vl.getD i [] ≠ [] := by
  rw [List.getD_eq_getElem _ _ hi]
  exact hne _ (List.getElem_mem _)

theorem vertex_disjoint (hflat : vl.flatten.Nodup) {i j : Nat}
    (hi : i < vl.length) (hj : j < vl.length) (hij : i ≠ j) {x : String}
    (hxi : x ∈ vl.getD i []) (hxj : x ∈ vl.getD j []) : False := by
  obtain ⟨-, hpair⟩ := List.nodup_flatten.mp hflat
  rw [List.pairwise_iff_get] at hpair
  rw [List.getD_eq_getElem _ _ hi] at hxi
  rw [List.getD_eq_getElem _ _ hj] at hxj
  rcases Nat.lt_or_ge i j with h | h
  · exact hpair ⟨i, hi⟩ ⟨j, hj⟩ (Fin.mk_lt_mk.mpr h) hxi hxj
  · exact hpair ⟨j, hj⟩ ⟨i, hi⟩ (Fin.mk_lt_mk.mpr (by omega)) hxj hxi

theorem getD_inj (hflat : vl.flatten.Nodup) (hne : ∀ v ∈ vl, v ≠ []) {i j : Nat}
    (hi : i < vl.length) (hj : j < vl.length) (h : vl.getD i [] = vl.getD j []) :
    i = j := by
  by_contra hij
  obtain ⟨x, hx⟩ := List.exists_mem_of_ne_nil _ (getD_ne_nil hne hi)
  exact vertex_disjoint hflat hi hj hij hx (h ▸ hx)

theorem mem_stage_flatten {v : List Nat} {x : String} :
    x ∈ (v.map (fun vidx => vl.getD vidx [])).flatten ↔ ∃ i ∈ v, x ∈ vl.getD i [] := by
  rw [List.mem_flatten]
  constructor
  · rintro ⟨l, hl, hx⟩
    obtain ⟨i, hi, rfl⟩ := List.mem_map.mp hl
    exact ⟨i, hi, hx⟩
  · rintro ⟨i, hi, hx⟩
    exact ⟨_, List.mem_map_of_mem _ hi, hx⟩

theorem flatten_mem_sub (hflat : vl.flatten.Nodup) (hne : ∀ v ∈ vl, v ≠ [])
    {v w : List Nat} (hv : ∀ i ∈ v, i < vl.length) (hw : ∀ j ∈ w, j < vl.length)
    (heq : (v.map (fun vidx => vl.getD vidx [])).flatten =
      (w.map (fun vidx => vl.getD vidx [])).flatten) :
    ∀ i ∈ v, i ∈ w := by
  intro i hi
  obtain ⟨x, hx⟩ := List.exists_mem_of_ne_nil _ (getD_ne_nil hne (hv i hi))
  have hxF : x ∈ (w.map (fun vidx => vl.getD vidx [])).flatten := by
    rw [← heq]
    exact mem_stage_flatten.mpr ⟨i, hi, hx⟩
  obtain ⟨j, hj, hxj⟩ := mem_stage_flatten.mp hxF
  have hij : i = j := by
    by_contra hij
    exact vertex_disjoint hflat (hv i hi) (hw j hj) hij hx hxj
  rwa [hij]

theorem segRun_ext {a b a₂ b₂ : Nat} (h1 : a ≤ b) (h2 : a₂ ≤ b₂)
    (h : ∀ i, i ∈ segRun a b ↔ i ∈ segRun a₂ b₂) : segRun a b = segRun a₂ b₂ := by
  have q1 := (h a).mp ((mem_segRun h1).mpr ⟨le_refl _, h1⟩)
  have q2 := (h b).mp ((mem_segRun h1).mpr ⟨h1, le_refl _⟩)
  have q3 := (h a₂).mpr ((mem_segRun h2).mpr ⟨le_refl _, h2⟩)
  have q4 := (h b₂).mpr ((mem_segRun h2).mpr ⟨h2, le_refl _⟩)
  rw [mem_segRun h2] at q1 q2
  rw [mem_segRun h1] at q3 q4
  have he : a = a₂ ∧ b = b₂ := by omega
  rw [he.1, he.2]

theorem spatial_inj (hflat : vl.flatten.Nodup) (hne : ∀ v ∈ vl, v ≠ []) :
    ∀ v w : List Nat, (∀ i ∈ v, i < vl.length) → (∀ j ∈ w, j < vl.length) →
      spatialSeg vl v = spatialSeg vl w → v = w := by
  intro v
  induction v with
  | nil =>
    intro w _ _ h
    rcases w with _ | ⟨j, w2⟩
    · rfl
    · exact absurd h (by simp [spatialSeg])
  | cons i v2 ih =>
    intro w hv hw h
    rcases w with _ | ⟨j, w2⟩
    · exact absurd h (by simp [spatialSeg])
    · simp only [spatialSeg, List.map_cons, List.cons.injEq] at h
      have hij := getD_inj hflat hne (hv i (List.mem_cons_self _ _))
        (hw j (List.mem_cons_self _ _)) h.1
      rw [List.cons.injEq]
      exact ⟨hij, ih w2 (fun x hx => hv x (List.mem_cons_of_mem _ hx))
        (fun x hx => hw x (List.mem_cons_of_mem _ hx)) h.2⟩

theorem spatial_ne_temporal (hflat : vl.flatten.Nodup) (hne : ∀ v ∈ vl, v ≠ [])
    {v w : List Nat} (hv : ∀ i ∈ v, i < vl.length) (hw : ∀ j ∈ w, j < vl.length)
    (hwne : w ≠ []) (hwnd : w.Nodup) (hvw : v ≠ w) :
    spatialSeg vl v ≠ temporalSeg vl w := by
  intro heq
  have hlen : v.length = 1 := by
    have hl := congrArg List.length heq
    simpa [spatialSeg, temporalSeg] using hl
  obtain ⟨i, rfl⟩ := List.length_eq_one.mp hlen
  have hFv : ([i].map (fun vidx => vl.getD vidx [])).flatten =
      (w.map (fun vidx => vl.getD vidx [])).flatten := by
    have hfi : vl.getD i [] = (w.map (fun vidx => vl.getD vidx [])).flatten := by
      simpa [spatialSeg, temporalSeg] using heq
    simpa using hfi
  have h2 := flatten_mem_sub hflat hne hw hv hFv.symm
  have hwi : w = [i] := by
    rcases w with _ | ⟨x, w2⟩
    · exact absurd rfl hwne
    · have hx : x = i := by simpa using h2 x (List.mem_cons_self _ _)
      subst hx
      rcases w2 with _ | ⟨y, w3⟩
      · rfl
      · have hy : y = x := by
          simpa using h2 y (List.mem_cons_of_mem _ (List.mem_cons_self _ _))
        subst hy
        exact absurd hwnd (by simp)
  exact hvw (by rw [hwi])

theorem mem_segCands {opts : SegOptions} {v : List Nat} {c : List (List String)}
    (hc : c ∈ segCands vl opts v) :
    c = spatialSeg vl v ∨ c = temporalSeg vl v := by
  rw [segCands, List.mem_dedup] at hc
  rcases List.mem_append.mp hc with h | h
  · split at h
    · exact Or.inl (List.mem_singleton.mp h)
    · exact absurd h (List.not_mem_nil _)
  · split at h
    · exact Or.inr (List.mem_singleton.mp h)
    · exact absurd h (List.not_mem_nil _)

theorem segCands_disjoint (hflat : vl.flatten.Nodup) (hne : ∀ v ∈ vl, v ≠ [])
    (opts : SegOptions) {a b a₂ b₂ : Nat} (h1 : a ≤ b) (hbn : b < vl.length)
    (h2 : a₂ ≤ b₂) (hbn₂ : b₂ < vl.length) (hvw : segRun a b ≠ segRun a₂ b₂) :
    ∀ c ∈ segCands vl opts (segRun a b), c ∉ segCands vl opts (segRun a₂ b₂) := by
  have hv : ∀ i ∈ segRun a b, i < vl.length := by
    intro i hi
    have := (mem_segRun h1).mp hi
    omega
  have hw : ∀ j ∈ segRun a₂ b₂, j < vl.length := by
    intro j hj
    have := (mem_segRun h2).mp hj
    omega
  have hvnd : (segRun a b).Nodup := List.nodup_range' _ _
  have hwnd : (segRun a₂ b₂).Nodup := List.nodup_range' _ _
  have htemp : temporalSeg vl (segRun a b) ≠ temporalSeg vl (segRun a₂ b₂) := by
    intro heq
    have hF : ((segRun a b).map (fun vidx => vl.getD vidx [])).flatten =
        ((segRun a₂ b₂).map (fun vidx => vl.getD vidx [])).flatten := by
      simpa [temporalSeg] using heq
    apply hvw
    apply segRun_ext h1 h2
    intro i
    exact ⟨fun hi => flatten_mem_sub hflat hne hv hw hF i hi,
      fun hi => flatten_mem_sub hflat hne hw hv hF.symm i hi⟩
  intro c hc hc2
  rcases mem_segCands hc with rfl | rfl <;> rcases mem_segCands hc2 with h4 | h4
  · exact hvw (spatial_inj hflat hne _ _ hv hw h4)
  · exact spatial_ne_temporal hflat hne hv hw (segRun_ne_nil h2) hwnd hvw h4
  · exact spatial_ne_temporal hflat hne hw hv (segRun_ne_nil h1) hvnd
      (fun h => hvw h.symm) h4.symm
  · exact htemp h4

end SegDedup

section Topo

theorem getLastD_mem : ∀ (v : List String), v ≠ [] → v.getLastD "" ∈ v := by
  intro v
  induction v with
  | nil => intro h; exact absurd rfl h
  | cons x v ih =>
    intro _
    rcases v with _ | ⟨y, t⟩
    · simp
    · rw [show (x :: y :: t).getLastD "" = (y :: t).getLastD "" by simp]
      exact List.mem_cons_of_mem _ (ih (by simp))

theorem getLast?_eq (v : List String) (h : v ≠ []) :
    v.getLast? = some (v.getLastD "") := by
  obtain ⟨a, ha⟩ := Option.isSome_iff_exists.mp (List.getLast?_isSome.mpr h)
  rw [ha, List.getLastD_eq_getLast?, ha, Option.getD_some]

theorem findMergeIdx_some_sound (net : Network) (prevs : Finset String)
    (acc : List (List String)) :
    ∀ k i, findMergeIdx net prevs acc k = some i →
      i < k ∧ mergeOk net prevs (acc.getD i []) := by
  intro k
  induction k with
  | zero => intro i h; rw [findMergeIdx] at h; exact absurd h (by simp)
  | succ k ih =>
    intro i h
    rw [findMergeIdx] at h
    split at h
    · rename_i hk
      obtain rfl := Option.some_inj.mp h
      exact ⟨Nat.lt_succ_self _, hk⟩
    · obtain ⟨h1, h2⟩ := ih i h
      exact ⟨Nat.lt_succ_of_lt h1, h2⟩

theorem buildStep_ok (net : Network) (hwf : NetWF net) {acc out : List (List String)}
    {l : String} (hl : l ∈ net.layers) (hstep : buildStep net acc l = some out)
    (hinv : VertexSetOk net acc) : VertexSetOk net out := by
  have happ : VertexSetOk net (acc ++ [[l]]) := by
    intro v hv
    rcases List.mem_append.mp hv with h | h
    · exact hinv v h
    · rw [List.mem_singleton.mp h]
      refine ⟨by simp, List.chain'_singleton _, ?_⟩
      intro x hx
      rw [List.mem_singleton.mp hx]
      exact hl
  unfold buildStep at hstep
  by_cases hconv : net.isConv l = true
  · rw [if_pos hconv] at hstep
    obtain rfl := Option.some_inj.mp hstep
    exact happ
  · rw [if_neg hconv] at hstep
    by_cases hne2 : (net.prevLayers l).toFinset = ∅
    · rw [if_pos hne2] at hstep
      exact absurd hstep (by simp)
    · rw [if_neg hne2] at hstep
      rcases hfind : findMergeIdx net ((net.prevLayers l).toFinset) acc acc.length
          with _ | idx
      · rw [hfind] at hstep
        obtain rfl := Option.some_inj.mp hstep
        exact happ
      · rw [hfind] at hstep
        obtain ⟨hidxlt, hok⟩ := findMergeIdx_some_sound net _ acc _ idx hfind
        obtain rfl := Option.some_inj.mp hstep
        intro v hv
        rcases List.mem_or_eq_of_mem_set hv with h | rfl
        · exact hinv v h
        · obtain ⟨hne0, hchain0, hmem0⟩ := hinv (acc.getD idx [])
            (by rw [List.getD_eq_getElem _ _ hidxlt]; exact List.getElem_mem _)
          refine ⟨by simp, ?_, ?_⟩
          · show List.Chain' _ _
            rw [List.chain'_append]
            refine ⟨hchain0, List.chain'_singleton _, ?_⟩
            intro x hx y hy
            rw [getLast?_eq _ hne0, Option.mem_some_iff] at hx
            rw [List.head?_cons, Option.mem_some_iff] at hy
            subst hx
            subst hy
            obtain ⟨-, htail, hlen1⟩ := hok
            have htailmem : (acc.getD idx []).getLastD "" ∈ net.layers :=
              hmem0 _ (getLastD_mem _ hne0)
            have hlnext : l ∈ net.nextLayers ((acc.getD idx []).getLastD "") :=
              (hwf.consist l hl _ htailmem).mp (List.mem_toFinset.mp htail)
            obtain ⟨a, ha⟩ := List.length_eq_one.mp hlen1
            rw [ha] at hlnext ⊢
            rw [List.mem_singleton.mp hlnext]
          · intro x hx
            rcases List.mem_append.mp hx with h | h
            · exact hmem0 x h
            · rw [List.mem_singleton.mp h]
              exact hl

theorem buildFold_ok (net : Network) (hwf : NetWF net) :
    ∀ (ls : List String) (acc out : List (List String)),
      (∀ l ∈ ls, l ∈ net.layers) →
      ls.foldlM (buildStep net) acc = some out →
      VertexSetOk net acc → VertexSetOk net out := by
  intro ls
  induction ls with
  | nil =>
    intro acc out _ h hinv
    rw [List.foldlM_nil] at h
    obtain rfl := Option.some_inj.mp h
    exact hinv
  | cons l rest ih =>
    intro acc out hls h hinv
    rw [List.foldlM_cons] at h
    rcases hstep : buildStep net acc l with _ | acc2
    · rw [hstep] at h
      exact absurd h (by simp)
    · rw [hstep] at h
      have h2 : rest.foldlM (buildStep net) acc2 = some out := h
      exact ih acc2 out (fun x hx => hls x (List.mem_cons_of_mem _ hx)) h2
        (buildStep_ok net hwf (hls l (List.mem_cons_self _ _)) hstep hinv)

theorem set_flatten_perm :
    ∀ (acc : List (List String)) (idx : Nat) (l : String), idx < acc.length →
      (acc.set idx (acc.getD idx [] ++ [l])).flatten.Perm (acc.flatten ++ [l]) := by
  intro acc
  induction acc with
  | nil => intro idx l h; simp at h
  | cons v acc ih =>
    intro idx l h
    rcases idx with _ | k
    · simp only [List.set_cons_zero, List.getD_cons_zero, List.flatten_cons]
      rw [List.append_assoc, List.append_assoc]
      exact List.Perm.append_left v List.perm_append_comm
    · simp only [List.set_cons_succ, List.getD_cons_succ, List.flatten_cons]
      rw [List.append_assoc]
      exact List.Perm.append_left v (ih k l (by simp at h; omega))

theorem buildStep_flatten (net : Network) {acc out : List (List String)} {l : String}
    (hstep : buildStep net acc l = some out) :
    out.flatten.Perm (acc.flatten ++ [l]) := by
  unfold buildStep at hstep
  by_cases hconv : net.isConv l = true
  · rw [if_pos hconv] at hstep
    obtain rfl := Option.some_inj.mp hstep
    rw [List.flatten_append]
    simp
  · rw [if_neg hconv] at hstep
    by_cases hne2 : (net.prevLayers l).toFinset = ∅
    · rw [if_pos hne2] at hstep
      exact absurd hstep (by simp)
    · rw [if_neg hne2] at hstep
      rcases hfind : findMergeIdx net ((net.prevLayers l).toFinset) acc acc.length
          with _ | idx
      · rw [hfind] at hstep
        obtain rfl := Option.some_inj.mp hstep
        rw [List.flatten_append]
        simp
      · rw [hfind] at hstep
        obtain ⟨hidxlt, -⟩ := findMergeIdx_some_sound net _ acc _ idx hfind
        obtain rfl := Option.some_inj.mp hstep
        exact set_flatten_perm acc idx l hidxlt

theorem buildFold_flatten (net : Network) :
    ∀ (ls : List String) (acc out : List (List String)),
      ls.foldlM (buildStep net) acc = some out →
      out.flatten.Perm (acc.flatten ++ ls) := by
  intro ls
  induction ls with
  | nil =>
    intro acc out h
    rw [List.foldlM_nil] at h
    obtain rfl := Option.some_inj.mp h
    simp
  | cons l rest ih =>
    intro acc out h
    rw [List.foldlM_cons] at h
    rcases hstep : buildStep net acc l with _ | acc2
    · rw [hstep] at h
      exact absurd h (by simp)
    · rw [hstep] at h
      have h2 : rest.foldlM (buildStep net) acc2 = some out := h
      refine ((ih acc2 out h2).trans ?_)
      have : (acc.flatten ++ [l]) ++ rest = acc.flatten ++ (l :: rest) := by
        rw [List.append_assoc]
        rfl
      exact this ▸ List.Perm.append_right rest (buildStep_flatten net hstep)

theorem chain_rank (net : Network) (rank : String → Nat) (hwf : NetWF net)
    (hrank : LayerRank net rank) :
    ∀ (v : List String), (∀ x ∈ v, x ∈ net.layers) → VertexChain net v →
      List.Chain' (fun x y => rank x < rank y) v := by
  intro v
  induction v with
  | nil => intro _ _; exact List.chain'_nil
  | cons x v ih =>
    intro hmem hchain
    rcases v with _ | ⟨y, t⟩
    · exact List.chain'_singleton _
    · rw [VertexChain, List.chain'_cons] at hchain
      rw [List.chain'_cons]
      constructor
      · have hy : y ∈ net.nextLayers x := by
          rw [hchain.1]
          exact List.mem_singleton.mpr rfl
        have hx : x ∈ net.layers := hmem x (by simp)
        have hyl : y ∈ net.layers := hmem y (by simp)
        have hprev : x ∈ net.prevLayers y := (hwf.consist y hyl x hx).mpr hy
        exact hrank y hyl x hprev (fun h => hwf.noEmpty (h ▸ hx))
      · exact ih (fun z hz => hmem z (List.mem_cons_of_mem _ hz)) hchain.2

theorem chain_lt_head (rank : String → Nat) :
    ∀ (v : List String) (x : String),
      List.Chain' (fun a b => rank a < rank b) (x :: v) → ∀ y ∈ v, rank x < rank y := by
  intro v
  induction v with
  | nil => intro x _ y hy; exact absurd hy (List.not_mem_nil _)
  | cons z t ih =>
    intro x hchain y hy
    rw [List.chain'_cons] at hchain
    rcases List.mem_cons.mp hy with rfl | hy2
    · exact hchain.1
    · exact lt_trans hchain.1 (ih z hchain.2 y hy2)

theorem rank_le_last (rank : String → Nat) :
    ∀ (v : List String), List.Chain' (fun a b => rank a < rank b) v →
      ∀ x ∈ v, rank x ≤ rank (v.getLastD "") := by
  intro v
  induction v with
  | nil => intro _ x hx; exact absurd hx (List.not_mem_nil _)
  | cons z t ih =>
    intro hchain x hx
    rcases t with _ | ⟨w, t2⟩
    · rw [List.mem_singleton.mp hx]
      simp
    · rw [show (z :: w :: t2).getLastD "" = (w :: t2).getLastD "" by simp]
      rcases List.mem_cons.mp hx with rfl | hx2
      · exact le_of_lt (chain_lt_head rank (w :: t2) x hchain _
          (getLastD_mem _ (by simp)))
      · exact ih (List.chain'_cons.mp hchain).2 x hx2

theorem tail_origin (net : Network) :
    ∀ (u : List String), VertexChain net u → ∀ l ∈ u, ∀ nl ∈ net.nextLayers l,
      nl ∉ u → l = u.getLastD "" := by
  intro u
  induction u with
  | nil => intro _ l hl; exact absurd hl (List.not_mem_nil _)
  | cons x u2 ih =>
    intro hchain l hl nl hnl hnotin
    rcases u2 with _ | ⟨y, t⟩
    · rw [List.mem_singleton.mp hl]
      simp
    · rw [show (x :: y :: t).getLastD "" = (y :: t).getLastD "" by simp]
      rw [VertexChain, List.chain'_cons] at hchain
      rcases List.mem_cons.mp hl with rfl | hl2
      · rw [hchain.1] at hnl
        rw [List.mem_singleton.mp hnl] at hnotin
        exact absurd (List.mem_cons_of_mem _ (List.mem_cons_self _ _)) hnotin
      · exact ih hchain.2 l hl2 nl hnl (fun h => hnotin (List.mem_cons_of_mem _ h))

theorem edge_rank (net : Network) (rank : String → Nat) (hwf : NetWF net)
    (hrank : LayerRank net rank) {u w : List String}
    (hu : u ≠ [] ∧ VertexChain net u ∧ ∀ x ∈ u, x ∈ net.layers)
    (hw : w ≠ [] ∧ VertexChain net w ∧ ∀ x ∈ w, x ∈ net.layers)
    (hedge : EdgeV net u w) : rankV rank u < rankV rank w := by
  obtain ⟨l, hl, nl, hnl, hne, hnotin, hnlw⟩ := hedge
  have hlast : l = u.getLastD "" := tail_origin net u hu.2.1 l hl nl hnl hnotin
  have hnlmem : nl ∈ net.layers := hw.2.2 nl hnlw
  have hlmem : l ∈ net.layers := hu.2.2 l hl
  have hprev : l ∈ net.prevLayers nl := (hwf.consist nl hnlmem l hlmem).mpr hnl
  have h1 : rank l < rank nl :=
    hrank nl hnlmem l hprev (fun h => hwf.noEmpty (h ▸ hlmem))
  have h2 : rank nl ≤ rank (w.getLastD "") :=
    rank_le_last rank w (chain_rank net rank hwf hrank w hw.2.2 hw.2.1) nl hnlw
  rw [rankV, rankV, ← hlast]
  omega

theorem collectVertices_mem (vl : List (List String)) (unseen : Finset (List String))
    (nls : List String) :
    ∀ c ∈ collectVertices vl unseen nls,
      c ∈ vl ∧ c ∈ unseen ∧ ∃ nl ∈ nls, nl ∈ c := by
  have key : ∀ (ns : List String) (acc : List (List String)) (c : List String),
      c ∈ ns.foldl (fun acc nl =>
        acc ++ vl.filter (fun nv => decide (nv ∈ unseen ∧ nl ∈ nv))) acc →
      c ∈ acc ∨ (c ∈ vl ∧ c ∈ unseen ∧ ∃ nl ∈ ns, nl ∈ c) := by
    intro ns
    induction ns with
    | nil =>
      intro acc c hc
      rw [List.foldl_nil] at hc
      exact Or.inl hc
    | cons nl ns ih =>
      intro acc c hc
      rw [List.foldl_cons] at hc
      rcases ih _ c hc with h | h
      · rcases List.mem_append.mp h with h2 | h2
        · exact Or.inl h2
        · obtain ⟨hcvl, hp⟩ := List.mem_filter.mp h2
          have hp2 : c ∈ unseen ∧ nl ∈ c := of_decide_eq_true hp
          exact Or.inr ⟨hcvl, hp2.1, nl, List.mem_cons_self _ _, hp2.2⟩
      · obtain ⟨h1, h2, m, hm, hmc⟩ := h
        exact Or.inr ⟨h1, h2, m, List.mem_cons_of_mem _ hm, hmc⟩
  intro c hc
  rcases key nls [] c hc with h | h
  · exact absurd h (List.not_mem_nil _)
  · exact h

theorem collectVertices_complete (vl : List (List String))
    (unseen : Finset (List String)) (nls : List String) (c : List String)
    (nl : String) (hnl : nl ∈ nls) (hcvl : c ∈ vl) (hcu : c ∈ unseen)
    (hnlc : nl ∈ c) : c ∈ collectVertices vl unseen nls := by
  have key : ∀ (ns : List String) (acc : List (List String)),
      c ∈ acc ∨ (∃ m ∈ ns, m ∈ c) →
      c ∈ ns.foldl (fun acc nl =>
        acc ++ vl.filter (fun nv => decide (nv ∈ unseen ∧ nl ∈ nv))) acc := by
    intro ns
    induction ns with
    | nil =>
      intro acc h
      rw [List.foldl_nil]
      rcases h with h | ⟨m, hm, _⟩
      · exact h
      · exact absurd hm (List.not_mem_nil _)
    | cons m ns ih =>
      intro acc h
      rw [List.foldl_cons]
      rcases h with h | ⟨m', hm', hmc⟩
      · exact ih _ (Or.inl (List.mem_append_left _ h))
      · rcases List.mem_cons.mp hm' with rfl | hm2
        · refine ih _ (Or.inl (List.mem_append_right _ ?_))
          rw [List.mem_filter]
          exact ⟨hcvl, decide_eq_true ⟨hcu, hmc⟩⟩
        · exact ih _ (Or.inr ⟨m', hm2, hmc⟩)
  exact key nls [] (Or.inr ⟨nl, hnl, hnlc⟩)

theorem vertexNextLayers_mem (net : Network) (vertex : List String) :
    ∀ nl ∈ vertexNextLayers net vertex,
      ∃ l ∈ vertex, nl ∈ net.nextLayers l ∧ nl ≠ "" ∧ nl ∉ vertex := by
  have inner : ∀ (ls : List String) (acc : List String) (x : String),
      x ∈ ls.foldl (fun acc2 nl =>
        if nl ≠ "" ∧ nl ∉ vertex ∧ nl ∉ acc2 then acc2 ++ [nl] else acc2) acc →
      x ∈ acc ∨ (x ∈ ls ∧ x ≠ "" ∧ x ∉ vertex) := by
    intro ls
    induction ls with
    | nil =>
      intro acc x hx
      rw [List.foldl_nil] at hx
      exact Or.inl hx
    | cons m ls ih =>
      intro acc x hx
      rw [List.foldl_cons] at hx
      by_cases hc : m ≠ "" ∧ m ∉ vertex ∧ m ∉ acc
      · rw [if_pos hc] at hx
        rcases ih _ x hx with h | h
        · rcases List.mem_append.mp h with h2 | h2
          · exact Or.inl h2
          · rw [List.mem_singleton.mp h2]
            exact Or.inr ⟨List.mem_cons_self _ _, hc.1, hc.2.1⟩
        · exact Or.inr ⟨List.mem_cons_of_mem _ h.1, h.2.1, h.2.2⟩
      · rw [if_neg hc] at hx
        rcases ih _ x hx with h | h
        · exact Or.inl h
        · exact Or.inr ⟨List.mem_cons_of_mem _ h.1, h.2.1, h.2.2⟩
  have outer : ∀ (vs : List String) (acc : List String) (x : String),
      x ∈ vs.foldl (fun acc l => (net.nextLayers l).foldl (fun acc2 nl =>
        if nl ≠ "" ∧ nl ∉ vertex ∧ nl ∉ acc2 then acc2 ++ [nl] else acc2) acc) acc →
      x ∈ acc ∨ ∃ l ∈ vs, x ∈ net.nextLayers l ∧ x ≠ "" ∧ x ∉ vertex := by
    intro vs
    induction vs with
    | nil =>
      intro acc x hx
      rw [List.foldl_nil] at hx
      exact Or.inl hx
    | cons l vs ih =>
      intro acc x hx
      rw [List.foldl_cons] at hx
      rcases ih _ x hx with h | h
      · rcases inner _ _ x h with h2 | h2
        · exact Or.inl h2
        · exact Or.inr ⟨l, List.mem_cons_self _ _, h2⟩
      · obtain ⟨m, hm, hrest⟩ := h
        exact Or.inr ⟨m, List.mem_cons_of_mem _ hm, hrest⟩
  intro nl hnl
  unfold vertexNextLayers at hnl
  rcases outer vertex [] nl hnl with h | h
  · exact absurd h (List.not_mem_nil _)
  · exact h

theorem vertexNextLayers_complete (net : Network) (vertex : List String)
    (nl l : String) (hl : l ∈ vertex) (hnext : nl ∈ net.nextLayers l)
    (hne : nl ≠ "") (hnotin : nl ∉ vertex) :
    nl ∈ vertexNextLayers net vertex := by
  have inner : ∀ (ls : List String) (acc : List String),
      nl ∈ ls ∨ nl ∈ acc →
      nl ∈ ls.foldl (fun acc2 m =>
        if m ≠ "" ∧ m ∉ vertex ∧ m ∉ acc2 then acc2 ++ [m] else acc2) acc := by
    intro ls
    induction ls with
    | nil =>
      intro acc h
      rw [List.foldl_nil]
      rcases h with h | h
      · exact absurd h (List.not_mem_nil _)
      · exact h
    | cons m ls ih =>
      intro acc h
      rw [List.foldl_cons]
      rcases h with h | h
      · rcases List.mem_cons.mp h with rfl | h2
        · by_cases hc : nl ≠ "" ∧ nl ∉ vertex ∧ nl ∉ acc
          · rw [if_pos hc]
            exact ih _ (Or.inr (List.mem_append_right _ (List.mem_singleton.mpr rfl)))
          · rw [if_neg hc]
            have hacc : nl ∈ acc := by
              by_contra hacc
              exact hc ⟨hne, hnotin, hacc⟩
            exact ih _ (Or.inr hacc)
        · exact ih _ (Or.inl h2)
      · by_cases hc : m ≠ "" ∧ m ∉ vertex ∧ m ∉ acc
        · rw [if_pos hc]
          exact ih _ (Or.inr (List.mem_append_left _ h))
        · rw [if_neg hc]
          exact ih _ (Or.inr h)
  have outer : ∀ (vs : List String) (acc : List String),
      (∃ m ∈ vs, nl ∈ net.nextLayers m) ∨ nl ∈ acc →
      nl ∈ vs.foldl (fun acc l => (net.nextLayers l).foldl (fun acc2 m =>
        if m ≠ "" ∧ m ∉ vertex ∧ m ∉ acc2 then acc2 ++ [m] else acc2) acc) acc := by
    intro vs
    induction vs with
    | nil =>
      intro acc h
      rw [List.foldl_nil]
      rcases h with ⟨m, hm, _⟩ | h
      · exact absurd hm (List.not_mem_nil _)
      · exact h
    | cons m vs ih =>
      intro acc h
      rw [List.foldl_cons]
      rcases h with ⟨m', hm', hnext'⟩ | h
      · rcases List.mem_cons.mp hm' with rfl | h2
        · exact ih _ (Or.inr (inner _ _ (Or.inl hnext')))
        · exact ih _ (Or.inl ⟨m', h2, hnext'⟩)
      · exact ih _ (Or.inr (inner _ _ (Or.inr h)))
  unfold vertexNextLayers
  exact outer vertex [] (Or.inl ⟨l, hl, hnext⟩)

theorem indexOf_append_of_not_mem (c : String) (A B : List String) (h : c ∉ A) :
    List.indexOf c (A ++ B) = A.length + List.indexOf c B := by
  induction A with
  | nil => simp
  | cons a A ih =>
    have hne : a ≠ c := by
      rintro rfl
      exact h (List.mem_cons_self _ _)
    rw [List.cons_append, List.indexOf_cons_ne _ hne,
      ih (fun hh => h (List.mem_cons_of_mem _ hh))]
    simp [List.length_cons]
    omega

theorem chain_lt_pairwise (rank : String → Nat) :
    ∀ (v : List String), List.Chain' (fun a b => rank a < rank b) v →
      List.Pairwise (fun a b => rank a < rank b) v := by
  intro v
  induction v with
  | nil => intro _; exact List.Pairwise.nil
  | cons x v ih =>
    intro hchain
    exact List.Pairwise.cons (chain_lt_head rank v x hchain)
      (ih (List.chain'_cons'.mp hchain).2)

theorem indexOf_rank_lt (rank : String → Nat) (v : List String)
    (hpw : List.Pairwise (fun a b => rank a < rank b) v) (p c : String)
    (hp : p ∈ v) (hc : c ∈ v) (hlt : rank p < rank c) :
    List.indexOf p v < List.indexOf c v := by
  by_contra hle
  push_neg at hle
  have hip : List.indexOf p v < v.length := List.indexOf_lt_length.mpr hp
  have hic : List.indexOf c v < v.length := List.indexOf_lt_length.mpr hc
  rcases Nat.lt_or_ge (List.indexOf c v) (List.indexOf p v) with hlt2 | hge
  · have h2 := List.pairwise_iff_get.mp hpw ⟨List.indexOf c v, hic⟩
      ⟨List.indexOf p v, hip⟩ (Fin.mk_lt_mk.mpr hlt2)
    rw [List.indexOf_get hic, List.indexOf_get hip] at h2
    omega
  · have heq : List.indexOf c v = List.indexOf p v := by omega
    have h2 : c = p := by
      rw [← List.indexOf_get hic, ← List.indexOf_get hip]
      congr 1
      exact Fin.ext heq
    rw [h2] at hlt
    omega

theorem dfsFoldAux (net : Network) (vl : List (List String)) (rank : String → Nat)
    (fuel : Nat)
    (hIH : ∀ vertex st st', dfs net vl fuel vertex st = some st' →
      DfsInv net vl st → vertex ∈ vl →
      (∀ s ∈ st.seen, rankV rank s < rankV rank vertex) →
      DfsInv net vl st' ∧ st'.seen = st.seen ∧ st'.unseen ⊆ st.unseen ∧
        (∃ L, st'.visited = st.visited ++ L) ∧ vertex ∈ st'.visited)
    (S₀ : Finset (List String)) :
    ∀ (C : List (List String)) (t st₂ : DfsState),
      (∀ c ∈ C, c ∈ vl ∧ ∀ s ∈ S₀, rankV rank s < rankV rank c) →
      C.foldlM (fun acc nv => dfs net vl fuel nv acc) t = some st₂ →
      DfsInv net vl t → t.seen = S₀ →
      DfsInv net vl st₂ ∧ st₂.seen = t.seen ∧ st₂.unseen ⊆ t.unseen ∧
        (∃ L, st₂.visited = t.visited ++ L) ∧ ∀ c ∈ C, c ∈ st₂.visited := by
  intro C
  induction C with
  | nil =>
    intro t st₂ _ hfold hinv _
    rw [List.foldlM_nil] at hfold
    obtain rfl := Option.some_inj.mp hfold
    exact ⟨hinv, rfl, fun x hx => hx, ⟨[], (List.append_nil _).symm⟩,
      fun c hc => absurd hc (List.not_mem_nil _)⟩
  | cons c C ih =>
    intro t st₂ hC hfold hinv hts
    rw [List.foldlM_cons] at hfold
    rcases hd : dfs net vl fuel c t with _ | t₁
    · rw [hd] at hfold
      exact absurd hfold (by simp)
    · rw [hd] at hfold
      have hfold₂ : C.foldlM (fun acc nv => dfs net vl fuel nv acc) t₁ = some st₂ :=
        hfold
      have hc0 := hC c (List.mem_cons_self _ _)
      obtain ⟨hinv₁, hseen₁, hsub₁, ⟨L₁, hvis₁⟩, hcv₁⟩ :=
        hIH c t t₁ hd hinv hc0.1 (by rw [hts]; exact hc0.2)
      obtain ⟨hinv₂, hseen₂, hsub₂, ⟨L₂, hvis₂⟩, hCv₂⟩ :=
        ih t₁ st₂ (fun x hx => hC x (List.mem_cons_of_mem _ hx)) hfold₂ hinv₁
          (hseen₁.trans hts)
      refine ⟨hinv₂, hseen₂.trans hseen₁, fun x hx => hsub₁ (hsub₂ hx),
        ⟨L₁ ++ L₂, by rw [hvis₂, hvis₁, List.append_assoc]⟩, ?_⟩
      intro c' hc'
      rcases List.mem_cons.mp hc' with rfl | hc2
      · rw [hvis₂]
        exact List.mem_append_left _ hcv₁
      · exact hCv₂ c' hc2

theorem dfs_spec (net : Network) (vl : List (List String)) (rank : String → Nat)
    (hwf : NetWF net) (hrank : LayerRank net rank) (hvso : VertexSetOk net vl) :
    ∀ (fuel : Nat) (vertex : List String) (st st' : DfsState),
      dfs net vl fuel vertex st = some st' →
      DfsInv net vl st → vertex ∈ vl →
      (∀ s ∈ st.seen, rankV rank s < rankV rank vertex) →
      DfsInv net vl st' ∧ st'.seen = st.seen ∧ st'.unseen ⊆ st.unseen ∧
        (∃ L, st'.visited = st.visited ++ L) ∧ vertex ∈ st'.visited := by
  intro fuel
  induction fuel with
  | zero =>
    intro vertex st st' hd
    rw [dfs] at hd
    exact absurd hd (by simp)
  | succ fuel ih =>
    intro vertex st st' hd hinv hvvl hseen
    rw [dfs] at hd
    by_cases hmem : vertex ∈ st.seen ∨ vertex ∈ st.visited
    · rw [if_pos hmem] at hd
      exact absurd hd (by simp)
    · rw [if_neg hmem] at hd
      push_neg at hmem
      rcases hfold : (collectVertices vl (st.unseen.erase vertex)
          ((vertexNextLayers net vertex).reverse)).foldlM
          (fun acc nv => dfs net vl fuel nv acc)
          (⟨st.visited, st.unseen.erase vertex, insert vertex st.seen⟩ : DfsState)
          with _ | st₂
      · rw [hfold] at hd
        exact absurd hd (by simp)
      · rw [hfold] at hd
        obtain rfl := Option.some_inj.mp hd
        have hinv₁ : DfsInv net vl
            ⟨st.visited, st.unseen.erase vertex, insert vertex st.seen⟩ := by
          refine ⟨?_, ?_, ?_, hinv.subV, ?_, ?_, ?_, hinv.nodupV, hinv.post⟩
          · intro v hv
            rcases hinv.cover v hv with h | h | h
            · by_cases hveq : v = vertex
              · exact Or.inr (Or.inl (by rw [hveq]; exact Finset.mem_insert_self _ _))
              · exact Or.inl (Finset.mem_erase.mpr ⟨hveq, h⟩)
            · exact Or.inr (Or.inl (Finset.mem_insert_of_mem h))
            · exact Or.inr (Or.inr h)
          · intro v hv
            exact hinv.subU v (Finset.mem_of_mem_erase hv)
          · intro v hv
            rcases Finset.mem_insert.mp hv with rfl | h
            · exact hvvl
            · exact hinv.subS v h
          · intro v hv hcon
            have h1 := Finset.mem_erase.mp hv
            rcases Finset.mem_insert.mp hcon with rfl | h
            · exact h1.1 rfl
            · exact hinv.dUS v h1.2 h
          · intro v hv
            exact hinv.dUV v (Finset.mem_of_mem_erase hv)
          · intro v hv
            rcases Finset.mem_insert.mp hv with rfl | h
            · exact hmem.2
            · exact hinv.dSV v h
        have hedgeC : ∀ c ∈ collectVertices vl (st.unseen.erase vertex)
            ((vertexNextLayers net vertex).reverse), c ∈ vl ∧ EdgeV net vertex c := by
          intro c hc
          obtain ⟨hcvl, hcun, nl, hnl, hnlc⟩ :=
            collectVertices_mem vl _ _ c hc
          obtain ⟨l, hl, hnext, hne, hnotin⟩ :=
            vertexNextLayers_mem net vertex nl (List.mem_reverse.mp hnl)
          exact ⟨hcvl, l, hl, nl, hnext, hne, hnotin, hnlc⟩
        have hCrank : ∀ c ∈ collectVertices vl (st.unseen.erase vertex)
            ((vertexNextLayers net vertex).reverse),
            c ∈ vl ∧ ∀ s ∈ insert vertex st.seen,
              rankV rank s < rankV rank c := by
          intro c hc
          obtain ⟨hcvl, hedge⟩ := hedgeC c hc
          have hrkv : rankV rank vertex < rankV rank c :=
            edge_rank net rank hwf hrank (hvso vertex hvvl) (hvso c hcvl) hedge
          refine ⟨hcvl, ?_⟩
          intro s hs
          rcases Finset.mem_insert.mp hs with rfl | hss
          · exact hrkv
          · exact lt_trans (hseen s hss) hrkv
        obtain ⟨hinv₂, hseen₂, hsub₂, ⟨L₂, hvis₂⟩, hCvis⟩ :=
          dfsFoldAux net vl rank fuel ih (insert vertex st.seen) _ _ _
            hCrank hfold hinv₁ rfl
        have hseen₂' : st₂.seen = insert vertex st.seen := hseen₂
        have hvis₂' : st₂.visited = st.visited ++ L₂ := hvis₂
        have hwvis : ∀ w, EdgeV net vertex w → w ∈ vl → w ∈ st₂.visited := by
          intro w hedge hwvl
          rcases hinv₁.cover w hwvl with h | h | h
          · obtain ⟨l, hl, nl, hnl, hne, hnotin, hnlw⟩ := hedge
            have hnlmem : nl ∈ (vertexNextLayers net vertex).reverse :=
              List.mem_reverse.mpr
                (vertexNextLayers_complete net vertex nl l hl hnl hne hnotin)
            exact hCvis w (collectVertices_complete vl _ _ w nl hnlmem hwvl h hnlw)
          · rcases Finset.mem_insert.mp h with rfl | hss
            · obtain ⟨l, hl, nl, hnl, hne, hnotin, hnlw⟩ := hedge
              exact absurd hnlw hnotin
            · have h1 := hseen w hss
              have h2 := edge_rank net rank hwf hrank (hvso vertex hvvl)
                (hvso w hwvl) hedge
              omega
          · rw [hvis₂']
            exact List.mem_append_left _ h
        have hvnotvis₂ : vertex ∉ st₂.visited := by
          intro hcon
          exact hinv₂.dSV vertex (by rw [hseen₂']; exact Finset.mem_insert_self _ _) hcon
        refine ⟨?_, ?_, ?_, ?_, ?_⟩
        · refine ⟨?_, hinv₂.subU, ?_, ?_, ?_, ?_, ?_, ?_, ?_⟩
          · intro v hv
            rcases hinv₂.cover v hv with h | h | h
            · exact Or.inl h
            · by_cases hveq : v = vertex
              · exact Or.inr (Or.inr (by
                  rw [hveq]
                  exact List.mem_append_right _ (List.mem_singleton.mpr rfl)))
              · exact Or.inr (Or.inl (Finset.mem_erase.mpr ⟨hveq, h⟩))
            · exact Or.inr (Or.inr (List.mem_append_left _ h))
          · intro v hv
            exact hinv₂.subS v (Finset.mem_of_mem_erase hv)
          · intro v hv
            rcases List.mem_append.mp hv with h | h
            · exact hinv₂.subV v h
            · rw [List.mem_singleton.mp h]
              exact hvvl
          · intro v hv hcon
            exact hinv₂.dUS v hv (Finset.mem_of_mem_erase hcon)
          · intro v hv hcon
            rcases List.mem_append.mp hcon with h | h
            · exact hinv₂.dUV v hv h
            · rw [List.mem_singleton.mp h] at hv
              exact hinv₂.dUS vertex hv (by rw [hseen₂']; exact Finset.mem_insert_self _ _)
          · intro v hv hcon
            have h1 := Finset.mem_erase.mp hv
            rcases List.mem_append.mp hcon with h | h
            · exact hinv₂.dSV v h1.2 h
            · exact h1.1 (List.mem_singleton.mp h)
          · rw [List.nodup_append]
            refine ⟨hinv₂.nodupV, List.nodup_singleton _, ?_⟩
            intro a ha hcon
            rw [List.mem_singleton.mp hcon] at ha
            exact hvnotvis₂ ha
          · intro u w hedge hwvl hu
            rcases List.mem_append.mp hu with hu₂ | hu₁
            · obtain ⟨A, B, hAB, hwA, huB⟩ := hinv₂.post u w hedge hwvl hu₂
              exact ⟨A, B ++ [vertex], by rw [hAB, List.append_assoc],
                hwA, List.mem_append_left _ huB⟩
            · rw [List.mem_singleton.mp hu₁] at hedge ⊢
              exact ⟨st₂.visited, [vertex], rfl, hwvis w hedge hwvl,
                List.mem_singleton.mpr rfl⟩
        · show st₂.seen.erase vertex = st.seen
          rw [hseen₂']
          exact Finset.erase_insert hmem.1
        · intro x hx
          exact Finset.mem_of_mem_erase (hsub₂ hx)
        · exact ⟨L₂ ++ [vertex], by
            show st₂.visited ++ [vertex] = st.visited ++ (L₂ ++ [vertex])
            rw [hvis₂', List.append_assoc]⟩
        · exact List.mem_append_right _ (List.mem_singleton.mpr rfl)

theorem topologicalOrder_spec (net : Network) (rank : String → Nat)
    (vl VL : List (List String)) (hwf : NetWF net) (hrank : LayerRank net rank)
    (hvso : VertexSetOk net vl) (h : topologicalOrder net vl = some VL) :
    VL.Nodup ∧ (∀ v ∈ VL, v ∈ vl) ∧ (∀ v ∈ vl, v ∈ VL) ∧
      ∀ u w, EdgeV net u w → u ∈ VL → w ∈ vl →
        ∃ X Y, VL = X ++ Y ∧ u ∈ X ∧ w ∈ Y := by
  unfold topologicalOrder at h
  rcases hfold : (startVertices net vl).foldlM
      (fun acc v => dfs net vl (vl.length + 1) v acc)
      (⟨[], vl.toFinset, ∅⟩ : DfsState) with _ | st
  · rw [hfold] at h
    exact absurd h (by simp)
  · rw [hfold] at h
    have h' : (if st.unseen = ∅ ∧ st.seen = ∅
        then some st.visited.reverse else none) = some VL := h
    by_cases hck : st.unseen = ∅ ∧ st.seen = ∅
    · rw [if_pos hck] at h'
      obtain rfl := Option.some_inj.mp h'
      have hinv₀ : DfsInv net vl (⟨[], vl.toFinset, ∅⟩ : DfsState) := by
        refine ⟨?_, ?_, ?_, ?_, ?_, ?_, ?_, List.nodup_nil, ?_⟩
        · intro v hv
          exact Or.inl (List.mem_toFinset.mpr hv)
        · intro v hv
          exact List.mem_toFinset.mp hv
        · intro v hv
          exact absurd hv (Finset.not_mem_empty v)
        · intro v hv
          exact absurd hv (List.not_mem_nil v)
        · intro v _
          exact Finset.not_mem_empty v
        · intro v _
          exact List.not_mem_nil v
        · intro v hv
          exact absurd hv (Finset.not_mem_empty v)
        · intro u w _ _ hu
          exact absurd hu (List.not_mem_nil u)
      have hstart : ∀ c ∈ startVertices net vl,
          c ∈ vl ∧ ∀ s ∈ (∅ : Finset (List String)),
            rankV rank s < rankV rank c := by
        intro c hc
        exact ⟨(collectVertices_mem vl vl.toFinset net.firstLayers.reverse c hc).1,
          fun s hs => absurd hs (Finset.not_mem_empty s)⟩
      obtain ⟨hinv, -, -, -, -⟩ :=
        dfsFoldAux net vl rank (vl.length + 1)
          (dfs_spec net vl rank hwf hrank hvso (vl.length + 1)) ∅
          (startVertices net vl) ⟨[], vl.toFinset, ∅⟩ st hstart hfold hinv₀ rfl
      refine ⟨List.nodup_reverse.mpr hinv.nodupV, ?_, ?_, ?_⟩
      · intro v hv
        exact hinv.subV v (List.mem_reverse.mp hv)
      · intro v hv
        rcases hinv.cover v hv with h2 | h2 | h2
        · rw [hck.1] at h2
          exact absurd h2 (Finset.not_mem_empty v)
        · rw [hck.2] at h2
          exact absurd h2 (Finset.not_mem_empty v)
        · exact List.mem_reverse.mpr h2
      · intro u w hedge hu hwvl
        obtain ⟨A, B, hAB, hwA, huB⟩ :=
          hinv.post u w hedge hwvl (List.mem_reverse.mp hu)
        exact ⟨B.reverse, A.reverse, by rw [hAB, List.reverse_append],
          List.mem_reverse.mpr huB, List.mem_reverse.mpr hwA⟩
    · rw [if_neg hck] at h'
      exact absurd h' (by simp)

/-- Claim C3: for any acyclic network (acyclicity witnessed by a rank
function strictly increasing along real edges) that is structurally
well-formed and accepted by the DAG builder, `ordered_layer_list` is a
permutation of the network's layer list — each layer appears exactly
once — and for every producer/consumer pair (the producer a real
network-level predecessor of the consumer) the producer's position in
the returned list strictly precedes the consumer's. -/
theorem claim_C3 (net : Network) (rank : String → Nat) (sd : SchedDag)
    (hwf : NetWF net) (hrank : LayerRank net rank)
    (h : calcSchedDag net = some sd) :
    (orderedLayerList sd).Perm net.layers ∧
      ∀ c ∈ net.layers, ∀ p ∈ net.prevLayers c, p ≠ "" →
        List.indexOf p (orderedLayerList sd) <
          List.indexOf c (orderedLayerList sd) := by
  unfold calcSchedDag at h
  rcases hbv : buildVertexSet net with _ | vl0
  · rw [hbv] at h
    exact absurd h (by simp)
  rw [hbv] at h
  have h1 : (if (vl0.map List.length).sum = net.layers.length then
      match topologicalOrder net vl0 with
      | none => none
      | some vl =>
        if vl.flatten.Nodup then
          match buildAdj net vl with
          | none => none
          | some pn => some (⟨vl, pn.1, pn.2⟩ : SchedDag)
        else none
    else none) = some sd := h
  by_cases hsum : (vl0.map List.length).sum = net.layers.length
  swap
  · rw [if_neg hsum] at h1
    exact absurd h1 (by simp)
  rw [if_pos hsum] at h1
  rcases hto : topologicalOrder net vl0 with _ | VL
  · rw [hto] at h1
    exact absurd h1 (by simp)
  rw [hto] at h1
  have h2 : (if VL.flatten.Nodup then
      match buildAdj net VL with
      | none => none
      | some pn => some (⟨VL, pn.1, pn.2⟩ : SchedDag)
    else none) = some sd := h1
  by_cases hnd : VL.flatten.Nodup
  swap
  · rw [if_neg hnd] at h2
    exact absurd h2 (by simp)
  rw [if_pos hnd] at h2
  rcases hadj : buildAdj net VL with _ | pn
  · rw [hadj] at h2
    exact absurd h2 (by simp)
  rw [hadj] at h2
  have h3 : (⟨VL, pn.1, pn.2⟩ : SchedDag) = sd := Option.some_inj.mp h2
  have hol : orderedLayerList sd = VL.flatten := by
    rw [← h3]
    rfl
  have hvso0 : VertexSetOk net vl0 :=
    buildFold_ok net hwf net.layers [] vl0 (fun l hl => hl) hbv
      (fun v hv => absurd hv (List.not_mem_nil v))
  have hperm0 : vl0.flatten.Perm net.layers := by
    have := buildFold_flatten net net.layers [] vl0 hbv
    simpa using this
  obtain ⟨hVLnd, hVLsub, hVLsup, hpost⟩ :=
    topologicalOrder_spec net rank vl0 VL hwf hrank hvso0 hto
  have hvsoVL : VertexSetOk net VL := fun v hv => hvso0 v (hVLsub v hv)
  have hfl0nd : vl0.flatten.Nodup := hperm0.nodup_iff.mpr hwf.nodup
  obtain ⟨-, hpd0⟩ := List.nodup_flatten.mp hfl0nd
  have hvl0nd : vl0.Nodup := by
    have hne : List.Pairwise (· ≠ ·) vl0 := by
      refine hpd0.imp_of_mem ?_
      intro a b ha hb hdis heq
      obtain ⟨x, hx⟩ := List.exists_mem_of_ne_nil a (hvso0 a ha).1
      exact hdis hx (heq ▸ hx)
    exact hne
  have hVLperm : VL.Perm vl0 :=
    (List.subperm_of_subset hVLnd hVLsub).antisymm
      (List.subperm_of_subset hvl0nd hVLsup)
  have hflperm : VL.flatten.Perm net.layers := (hVLperm.flatten).trans hperm0
  rw [hol]
  refine ⟨hflperm, ?_⟩
  intro c hcl p hp hpne
  have hpl : p ∈ net.layers := by
    rcases hwf.prevMem c hcl p hp with h | h
    · exact absurd h hpne
    · exact h
  obtain ⟨u, hu, hpu⟩ := List.mem_flatten.mp (hflperm.mem_iff.mpr hpl)
  obtain ⟨w, hw, hcw⟩ := List.mem_flatten.mp (hflperm.mem_iff.mpr hcl)
  by_cases huw : u = w
  · rw [← huw] at hcw
    have hrlt : rank p < rank c := hrank c hcl p hp hpne
    obtain ⟨X, Y, hXY⟩ := List.append_of_mem hu
    have hFeq : VL.flatten = X.flatten ++ (u ++ Y.flatten) := by
      rw [hXY, List.flatten_append, List.flatten_cons]
    have hFnd2 : (X.flatten ++ (u ++ Y.flatten)).Nodup := by
      rw [← hFeq]
      exact hnd
    have hdisj := (List.nodup_append.mp hFnd2).2.2
    have hpnX : p ∉ X.flatten := fun hpX => hdisj hpX (List.mem_append_left _ hpu)
    have hcnX : c ∉ X.flatten := fun hcX => hdisj hcX (List.mem_append_left _ hcw)
    have hpw2 : List.Pairwise (fun a b => rank a < rank b) u :=
      chain_lt_pairwise rank u
        (chain_rank net rank hwf hrank u (hvsoVL u hu).2.2 (hvsoVL u hu).2.1)
    have hidx : List.indexOf p u < List.indexOf c u :=
      indexOf_rank_lt rank u hpw2 p c hpu hcw hrlt
    rw [hFeq, indexOf_append_of_not_mem p _ _ hpnX,
      indexOf_append_of_not_mem c _ _ hcnX,
      List.indexOf_append_of_mem hpu, List.indexOf_append_of_mem hcw]
    omega
  · obtain ⟨-, hpdVL⟩ := List.nodup_flatten.mp hnd
    have hdisuw : u.Disjoint w :=
      hpdVL.forall (fun _ _ hab => hab.symm) hu hw huw
    have hcnu : c ∉ u := fun hcu => hdisuw hcu hcw
    have hedge : EdgeV net u w :=
      ⟨p, hpu, c, (hwf.consist c hcl p hpl).mp hp,
        fun hh => hwf.noEmpty (hh ▸ hcl), hcnu, hcw⟩
    obtain ⟨X, Y, hXY, huX, hwY⟩ := hpost u w hedge hu (hVLsub w hw)
    have hFeq : VL.flatten = X.flatten ++ Y.flatten := by
      rw [hXY, List.flatten_append]
    have hFnd2 : (X.flatten ++ Y.flatten).Nodup := by
      rw [← hFeq]
      exact hnd
    have hdisj := (List.nodup_append.mp hFnd2).2.2
    have hpX : p ∈ X.flatten := List.mem_flatten.mpr ⟨u, huX, hpu⟩
    have hcY : c ∈ Y.flatten := List.mem_flatten.mpr ⟨w, hwY, hcw⟩
    have hcnX : c ∉ X.flatten := fun hcX => hdisj hcX hcY
    have hlt1 : List.indexOf p X.flatten < X.flatten.length :=
      List.indexOf_lt_length.mpr hpX
    rw [hFeq, List.indexOf_append_of_mem hpX,
      indexOf_append_of_not_mem c _ _ hcnX]
    omega

/-- Witness for C3: on the concrete network `netCX` (with the rank
function sending `C` to `1` and the other layers to `0`) the computed
ordered layer list is a permutation of the layer list and respects all
producer/consumer precedences. -/
theorem claim_C3_witness :
    (orderedLayerList cxSd).Perm netCX.layers ∧
      ∀ c ∈ netCX.layers, ∀ p ∈ netCX.prevLayers c, p ≠ "" →
        List.indexOf p (orderedLayerList cxSd) <
          List.indexOf c (orderedLayerList cxSd) :=
  claim_C3 netCX (fun l => if l = "C" then 1 else 0) cxSd
    ⟨by decide, by decide, by decide, by decide, by decide⟩
    (by unfold LayerRank; decide) (by decide)

end Topo

theorem firstsFold_some (valid : List (List String) → Bool) :
    ∀ (ls : List String) (acc r : List (List (List String))),
      ls.foldlM (fun acc layer =>
        if valid [[layer]] then some (acc ++ [[[layer]]]) else none) acc = some r →
      r = acc ++ ls.map (fun l => [[l]]) := by
  intro ls
  induction ls with
  | nil =>
    intro acc r h
    rw [List.foldlM_nil] at h
    simpa using (Option.some_inj.mp h).symm
  | cons l rest ih =>
    intro acc r h
    rw [List.foldlM_cons] at h
    by_cases hl : valid [[l]] = true
    · rw [if_pos hl] at h
      have h2 : rest.foldlM _ (acc ++ [[[l]]]) = some r := h
      rw [ih (acc ++ [[[l]]]) r h2]
      simp
    · rw [if_neg hl] at h
      exact absurd h (by simp [show (none : Option (List (List (List String)))) >>= _ = none from rfl])

/-- C4, counterexample to the claim as stated: on a one-conv-layer
network with spatial pipelining enabled and an all-accepting validator,
`gen_segment` yields the per-layer singleton segment `((A,),)` in the
initial phase and then yields the structurally identical spatial
materialisation of the vseg `[0]` — two identical segments in one call,
because the `seg_cands` deduplication is local to each vseg and nothing
deduplicates against the initial per-layer singletons. -/
theorem claim_C4_counterexample :
    genSegment netC4 sdC4 ⟨true, false⟩ (fun _ => true) = some [[["A"]], [["A"]]] ∧
    ¬ ([[["A"]], [["A"]]] : List (List (List String))).Nodup := by
  decide

/-- C4 (amended): within a single `gen_segment` call the initial
per-layer singleton segments are pairwise distinct, and the vseg-derived
segments are pairwise distinct across the entire vseg enumeration (the
per-vseg `seg_cands` set plus the disjointness of distinct vsegs'
materialisations); however a vseg-derived spatial segment can coincide
with an initial per-layer singleton segment, so deduplication does not
hold between the two phases. -/
theorem claim_C4 (net : Network) (sd : SchedDag) (opts : SegOptions)
    (valid : List (List String) → Bool) (Ht : TopoNext sd.toDag)
    (hflat : sd.vertexList.flatten.Nodup) (hne : ∀ v ∈ sd.vertexList, v ≠ [])
    (hlayers : net.layers.Nodup) (out : List (List (List String)))
    (h : genSegment net sd opts valid = some out) :
    ∃ p2, out = net.layers.map (fun l => [[l]]) ++ p2 ∧
      (net.layers.map (fun l => [[l]])).Nodup ∧ p2.Nodup := by
  obtain ⟨vout, memoF, heqV, hvnodup, hvmem⟩ := @genVseg_out sd.toDag Ht
  unfold genSegment at h
  rcases hf : net.layers.foldlM (fun acc layer =>
      if valid [[layer]] then some (acc ++ [[[layer]]]) else none) [] with _ | firsts
  · rw [hf] at h
    exact absurd h (by simp)
  · rw [hf] at h
    rw [heqV] at h
    have hfirsts : firsts = net.layers.map (fun l => [[l]]) := by
      simpa using firstsFold_some valid net.layers [] firsts hf
    refine ⟨(vout.map (fun vseg => (segCands sd.vertexList opts vseg).filter valid)).flatten,
      ?_, ?_, ?_⟩
    · rw [← hfirsts]
      exact (Option.some_inj.mp h).symm
    · exact hlayers.map (fun x y hxy => by simpa using hxy)
    · rw [List.nodup_flatten]
      constructor
      · intro l hl
        obtain ⟨vseg, -, rfl⟩ := List.mem_map.mp hl
        exact (List.nodup_dedup _).filter _
      · rw [List.pairwise_map]
        apply hvnodup.imp_of_mem
        intro v w hvm hwm hvw
        obtain ⟨a, b, hab, hbn, -, rfl⟩ := (hvmem v).mp hvm
        obtain ⟨a₂, b₂, hab₂, hbn₂, -, rfl⟩ := (hvmem w).mp hwm
        intro c hc hc2
        exact segCands_disjoint hflat hne opts hab hbn hab₂ hbn₂ hvw c
          (List.mem_of_mem_filter hc) (List.mem_of_mem_filter hc2)

/-- Witness for C4 (amended) on `netCX` with both flags on and an
all-accepting validator. -/
theorem claim_C4_witness :
    TopoNext cxSd.toDag ∧ cxSd.vertexList.flatten.Nodup ∧
    (∀ v ∈ cxSd.vertexList, v ≠ []) ∧ netCX.layers.Nodup ∧
    genSegment netCX cxSd ⟨true, true⟩ (fun _ => true) =
      some [[["A"]], [["B"]], [["C"]], [["A"]], [["C"]], [["B"]], [["A"], ["C"]],
        [["A", "C"]], [["A"], ["C"], ["B"]], [["A", "C", "B"]]] ∧
    ∃ p2, [[["A"]], [["B"]], [["C"]], [["A"]], [["C"]], [["B"]], [["A"], ["C"]],
        [["A", "C"]], [["A"], ["C"], ["B"]], [["A", "C", "B"]]] =
        netCX.layers.map (fun l => [[l]]) ++ p2 ∧
      (netCX.layers.map (fun l => [[l]])).Nodup ∧ p2.Nodup :=
  ⟨by decide, by decide, by decide, by decide, by decide,
   claim_C4 netCX cxSd ⟨true, true⟩ (fun _ => true) (by decide) (by decide) (by decide)
     (by decide) _ (by decide)⟩

/-- Witness for C10: a validator rejecting the trivial segment of layer
`B` of `netCX` makes `gen_segment` abort, and the all-accepting validator
lets it complete. -/
theorem claim_C10_witness :
    (∃ l ∈ netCX.layers, (fun s => decide (s ≠ [["B"]])) [[l]] = false) ∧
    genSegment netCX cxSd ⟨true, true⟩ (fun s => decide (s ≠ [["B"]])) = none ∧
    ∃ out, genSegment netCX cxSd ⟨true, true⟩ (fun _ => true) = some out :=
  ⟨by decide,
   (claim_C10 netCX cxSd ⟨true, true⟩ (fun s => decide (s ≠ [["B"]]))).1 (by decide),
   (claim_C10 netCX cxSd ⟨true, true⟩ (fun _ => true)).2 (fun l hl => rfl) (by decide)⟩

end InterLayerPipeline
